import Mathlib

/-!
A verification development for the `traces` library: unevenly-spaced time
series represented as piecewise-constant step functions.

The Python `TimeSeries` stores its measurements in a `SortedDict`; we embed it
as a list of `(time, value)` pairs that is strictly increasing in the time
component, together with the `default` value.  Times are kept abstract over a
linear order (the concrete instances in the examples use `ℚ`; wall-clock
instants are rationals counting seconds).  Fallible operations return
`Except`.
-/

namespace Traces

/-- A time series: the sorted list of `(time, value)` measurement points of
`TimeSeries` (backed by a `SortedDict`), plus the `default` value returned for
query times before the first measurement. -/
structure TimeSeries (T V : Type) where
  points : List (T × V)
  default : V
  deriving DecidableEq, Repr

variable {T V : Type} [LinearOrder T]

/-- The `SortedDict` invariant: keys strictly increase along the list. -/
abbrev SortedPoints (l : List (T × V)) : Prop :=
  l.Pairwise (fun a b => a.1 < b.1)

/-- `SortedDict.bisect_right`: the number of stored keys that are `≤ t`,
which for a sorted key list is the right bisection index of `t`. -/
def bisect_right (l : List (T × V)) (t : T) : Nat :=
  l.countP (fun p => decide (p.1 ≤ t))

/-- `TimeSeries._get_previous`: bisect right of `time`, and if the index is
positive return the value of the item just to its left (`peekitem`),
otherwise the default. -/
def TimeSeries.get_previous (S : TimeSeries T V) (time : T) : V :=
  let right_index := bisect_right S.points time
  if 0 < right_index then
    ((S.points[right_index - 1]?).map Prod.snd).getD S.default
  else
    S.default

/-- `TimeSeries.get` with the default interpolation mode `"previous"`;
`__getitem__` routes here as well. -/
def TimeSeries.get (S : TimeSeries T V) (time : T) : V :=
  S.get_previous time

/-- Key-ordered insertion into the points list: the effect of
`self._d[time] = value` on the backing `SortedDict` (replacing the value
when the key is already present). -/
def insertPoint (t : T) (v : V) : List (T × V) → List (T × V)
  | [] => [(t, v)]
  | (k, w) :: rest =>
    if t < k then (t, v) :: (k, w) :: rest
    else if t = k then (t, v) :: rest
    else (k, w) :: insertPoint t v rest

/-- `TimeSeries.set`: store `(time, value)` unless `compact` is set and the
series is non-empty and already evaluates to `value` at `time`. -/
def TimeSeries.set [DecidableEq V] (S : TimeSeries T V) (time : T) (value : V)
    (compact : Bool) : TimeSeries T V :=
  if S.points.length = 0 ∨ compact = false ∨
      (compact = true ∧ S.get_previous time ≠ value) then
    ⟨insertPoint time value S.points, S.default⟩
  else
    S

section GetLemmas

/-- Keys of the elements kept by the `≤ q` filter are bounded by `q`. -/
theorem mem_filter_le {l : List (T × V)} {q : T} {p : T × V}
    (hp : p ∈ l.filter (fun p => decide (p.1 ≤ q))) : p ∈ l ∧ p.1 ≤ q := by
  have h := List.of_mem_filter hp
  exact ⟨List.mem_of_mem_filter hp, by simpa using h⟩

/-- In a strictly sorted list, an element whose key bounds every key from
above is the last element. -/
theorem getLast?_of_max {l : List (T × V)} (hs : SortedPoints l) {p : T × V}
    (hp : p ∈ l) (hmax : ∀ p' ∈ l, p'.1 ≤ p.1) : l.getLast? = some p := by
  induction l with
  | nil => cases hp
  | cons a rest ih =>
    rcases rest with _ | ⟨b, rest'⟩
    · simp only [List.mem_singleton] at hp
      simp [hp]
    · have hs' : SortedPoints (b :: rest') := (List.pairwise_cons.mp hs).2
      have hab : a.1 < b.1 := (List.pairwise_cons.mp hs).1 b (by simp)
      have hpa : p ≠ a := by
        intro h
        subst h
        exact absurd (hmax b (by simp)) (not_le.mpr hab)
      have hp' : p ∈ b :: rest' := by
        rcases List.mem_cons.mp hp with h | h
        · exact absurd h hpa
        · exact h
      have := ih hs' hp' (fun p' hp'' => hmax p' (List.mem_cons_of_mem _ hp''))
      rw [List.getLast?_cons_cons]
      exact this

/-- `get_previous` on a sorted series returns the value of the last stored
pair whose key is `≤ q`, or the default when there is none.  This is the
list form of "value at the greatest stored key `≤ q`". -/
theorem get_previous_eq_filter {S : TimeSeries T V} (hs : SortedPoints S.points)
    (q : T) :
    S.get_previous q =
      (((S.points.filter (fun p => decide (p.1 ≤ q))).getLast?).map
        Prod.snd).getD S.default := by
  obtain ⟨l, d⟩ := S
  simp only [TimeSeries.get_previous, bisect_right]
  induction l with
  | nil => simp
  | cons a rest ih =>
    simp only [SortedPoints, List.pairwise_cons] at hs
    have hs' : SortedPoints rest := hs.2
    by_cases ha : a.1 ≤ q
    · have hcount : (a :: rest).countP (fun p => decide (p.1 ≤ q)) =
          rest.countP (fun p => decide (p.1 ≤ q)) + 1 := by
        rw [List.countP_cons]
        simp [ha]
      by_cases hzero : rest.countP (fun p => decide (p.1 ≤ q)) = 0
      · have hrest : rest.filter (fun p => decide (p.1 ≤ q)) = [] := by
          rw [List.filter_eq_nil_iff]
          intro p hp
          have := (List.countP_eq_zero).mp hzero p hp
          simpa using this
        simp [hcount, hzero, List.filter_cons, ha, hrest]
      · have hpos : 0 < rest.countP (fun p => decide (p.1 ≤ q)) := by omega
        have hfilter : (a :: rest).filter (fun p => decide (p.1 ≤ q)) =
            a :: rest.filter (fun p => decide (p.1 ≤ q)) := by
          simp [List.filter_cons, ha]
        have hne : rest.filter (fun p => decide (p.1 ≤ q)) ≠ [] := by
          intro h
          rw [List.countP_eq_length_filter, h] at hpos
          simp at hpos
        rw [hcount, hfilter]
        have hidx : rest.countP (fun p => decide (p.1 ≤ q)) + 1 - 1 =
            (rest.countP (fun p => decide (p.1 ≤ q)) - 1) + 1 := by omega
        have hget : (a :: rest)[rest.countP (fun p => decide (p.1 ≤ q)) + 1 - 1]? =
            rest[rest.countP (fun p => decide (p.1 ≤ q)) - 1]? := by
          rw [hidx]
          simp
        obtain ⟨b, l', hbl⟩ := List.exists_cons_of_ne_nil hne
        rw [if_pos (by omega), hget, hbl, List.getLast?_cons_cons, ← hbl]
        have := ih hs'
        rw [if_pos hpos] at this
        exact this
    · have hall : ∀ p ∈ a :: rest, ¬ p.1 ≤ q := by
        intro p hp
        rcases List.mem_cons.mp hp with h | h
        · rw [h]; exact ha
        · have := hs.1 p h
          intro hle
          exact ha (le_of_lt (lt_of_lt_of_le this hle))
      have hcount : (a :: rest).countP (fun p => decide (p.1 ≤ q)) = 0 := by
        rw [List.countP_eq_zero]
        intro p hp
        simpa using hall p hp
      have hfilter : (a :: rest).filter (fun p => decide (p.1 ≤ q)) = [] := by
        rw [List.filter_eq_nil_iff]
        intro p hp
        simpa using hall p hp
      simp [hcount, hfilter]

/-- On a sorted series, if no stored key is `≤ q` then `get_previous`
returns the default. -/
theorem get_previous_eq_default {S : TimeSeries T V} (hs : SortedPoints S.points)
    {q : T} (h : ∀ p ∈ S.points, ¬ p.1 ≤ q) :
    S.get_previous q = S.default := by
  rw [get_previous_eq_filter hs]
  have : S.points.filter (fun p => decide (p.1 ≤ q)) = [] := by
    rw [List.filter_eq_nil_iff]
    intro p hp
    simpa using h p hp
  simp [this]

/-- On a sorted series, if `p` is a stored pair with the greatest key `≤ q`
then `get_previous q` returns its value. -/
theorem get_previous_eq_max {S : TimeSeries T V} (hs : SortedPoints S.points)
    {q : T} {p : T × V} (hp : p ∈ S.points) (hle : p.1 ≤ q)
    (hmax : ∀ p' ∈ S.points, p'.1 ≤ q → p'.1 ≤ p.1) :
    S.get_previous q = p.2 := by
  rw [get_previous_eq_filter hs]
  have hsf : SortedPoints (S.points.filter (fun p => decide (p.1 ≤ q))) :=
    List.Pairwise.filter _ hs
  have hpf : p ∈ S.points.filter (fun p => decide (p.1 ≤ q)) :=
    List.mem_filter.mpr ⟨hp, by simpa using hle⟩
  have hmaxf : ∀ p' ∈ S.points.filter (fun p => decide (p.1 ≤ q)), p'.1 ≤ p.1 := by
    intro p' hp'
    obtain ⟨hmem, hq⟩ := mem_filter_le hp'
    exact hmax p' hmem hq
  rw [getLast?_of_max hsf hpf hmaxf]
  rfl

/-- If the window `(t0, t]` contains no stored key, the step function is
constant there: `get_previous t = get_previous t0`. -/
theorem get_previous_stable {S : TimeSeries T V} (hs : SortedPoints S.points)
    {t0 t : T} (h0 : t0 ≤ t)
    (h : ∀ p ∈ S.points, ¬ (t0 < p.1 ∧ p.1 ≤ t)) :
    S.get_previous t = S.get_previous t0 := by
  rw [get_previous_eq_filter hs, get_previous_eq_filter hs]
  have : S.points.filter (fun p => decide (p.1 ≤ t)) =
      S.points.filter (fun p => decide (p.1 ≤ t0)) := by
    apply List.filter_congr
    intro p hp
    by_cases h1 : p.1 ≤ t0
    · simp [h1, le_trans h1 h0]
    · have h2 : ¬ p.1 ≤ t := by
        intro hle
        exact h p hp ⟨lt_of_not_le h1, hle⟩
      simp [h1, h2]
  rw [this]

/-- `get`-level form of `get_previous_eq_max`, phrased on the underlying
point list so that it applies directly to structure literals. -/
theorem get_eq_max {l : List (T × V)} {d : V} (hs : SortedPoints l) {q : T}
    {p : T × V} (hp : p ∈ l) (hle : p.1 ≤ q)
    (hmax : ∀ x ∈ l, x.1 ≤ q → x.1 ≤ p.1) :
    TimeSeries.get ⟨l, d⟩ q = p.2 :=
  get_previous_eq_max (S := ⟨l, d⟩) hs hp hle hmax

/-- `get`-level form of `get_previous_eq_default` on the point list. -/
theorem get_eq_default {l : List (T × V)} {d : V} (hs : SortedPoints l)
    {q : T} (h : ∀ p ∈ l, ¬ p.1 ≤ q) : TimeSeries.get ⟨l, d⟩ q = d :=
  get_previous_eq_default (S := ⟨l, d⟩) hs h

/-- `get`-level form of `get_previous_stable` on the point list. -/
theorem get_stable {l : List (T × V)} {d : V} (hs : SortedPoints l)
    {t0 t : T} (h0 : t0 ≤ t) (h : ∀ p ∈ l, ¬ (t0 < p.1 ∧ p.1 ≤ t)) :
    TimeSeries.get ⟨l, d⟩ t = TimeSeries.get ⟨l, d⟩ t0 :=
  get_previous_stable (S := ⟨l, d⟩) hs h0 h

end GetLemmas

section InsertLemmas

/-- An element of a strictly sorted list whose key bounds the rest from above
is reached by `getLast?`; conversely the last element bounds all keys. -/
theorem max_of_getLast? {l : List (T × V)} (hs : SortedPoints l) {p : T × V}
    (h : l.getLast? = some p) : ∀ x ∈ l, x.1 ≤ p.1 := by
  induction l with
  | nil => simp at h
  | cons a rest ih =>
    rcases rest with _ | ⟨b, rest'⟩
    · simp only [List.getLast?_singleton, Option.some.injEq] at h
      intro x hx
      simp only [List.mem_singleton] at hx
      rw [hx, h]
    · rw [List.getLast?_cons_cons] at h
      have hs' : SortedPoints (b :: rest') := (List.pairwise_cons.mp hs).2
      have hp : p ∈ b :: rest' := List.mem_of_getLast?_eq_some h
      intro x hx
      rcases List.mem_cons.mp hx with hx | hx
      · have : a.1 < p.1 := (List.pairwise_cons.mp hs).1 p hp
        rw [hx]
        exact le_of_lt this
      · exact ih hs' h x hx

/-- On a sorted series, as soon as some stored key is `≤ q` there is a
stored pair with the greatest such key, and `get_previous` returns its
value. -/
theorem get_previous_max_of_exists {S : TimeSeries T V}
    (hs : SortedPoints S.points) {q : T} (h : ∃ p ∈ S.points, p.1 ≤ q) :
    ∃ p ∈ S.points, p.1 ≤ q ∧ (∀ x ∈ S.points, x.1 ≤ q → x.1 ≤ p.1) ∧
      S.get_previous q = p.2 := by
  obtain ⟨p0, hp0, hp0q⟩ := h
  have hne : S.points.filter (fun p => decide (p.1 ≤ q)) ≠ [] := by
    intro h
    have : p0 ∈ S.points.filter (fun p => decide (p.1 ≤ q)) :=
      List.mem_filter.mpr ⟨hp0, by simpa using hp0q⟩
    rw [h] at this
    cases this
  obtain ⟨p, hp⟩ : ∃ p, (S.points.filter (fun p => decide (p.1 ≤ q))).getLast? = some p := by
    cases hF : (S.points.filter (fun p => decide (p.1 ≤ q))).getLast? with
    | none => exact absurd (List.getLast?_eq_none_iff.mp hF) hne
    | some p => exact ⟨p, rfl⟩
  have hpF : p ∈ S.points.filter (fun p => decide (p.1 ≤ q)) :=
    List.mem_of_getLast?_eq_some hp
  obtain ⟨hpMem, hpLe⟩ := mem_filter_le hpF
  refine ⟨p, hpMem, hpLe, ?_, ?_⟩
  · intro x hx hxq
    exact max_of_getLast? (List.Pairwise.filter _ hs) hp x
      (List.mem_filter.mpr ⟨hx, by simpa using hxq⟩)
  · rw [get_previous_eq_filter hs, hp]
    rfl

/-- The new pair is always present after `insertPoint`. -/
theorem self_mem_insertPoint (t : T) (v : V) (l : List (T × V)) :
    (t, v) ∈ insertPoint t v l := by
  induction l with
  | nil => simp [insertPoint]
  | cons a rest ih =>
    obtain ⟨k, w⟩ := a
    by_cases h1 : t < k
    · simp [insertPoint, h1]
    · by_cases h2 : t = k
      · simp [insertPoint, h1, h2]
      · simp only [insertPoint, if_neg h1, if_neg h2]
        exact List.mem_cons_of_mem _ ih

/-- Membership after `insertPoint` on a sorted list: the new pair, or an old
pair at a different key. -/
theorem mem_insertPoint {l : List (T × V)} (hs : SortedPoints l) {t : T} {v : V}
    {x : T × V} :
    x ∈ insertPoint t v l ↔ x = (t, v) ∨ (x ∈ l ∧ x.1 ≠ t) := by
  induction l with
  | nil =>
    simp [insertPoint]
  | cons a rest ih =>
    obtain ⟨k, w⟩ := a
    have hs' : SortedPoints rest := (List.pairwise_cons.mp hs).2
    have hrest : ∀ p ∈ rest, k < p.1 := (List.pairwise_cons.mp hs).1
    by_cases h1 : t < k
    · simp only [insertPoint, if_pos h1]
      constructor
      · intro hx
        rcases List.mem_cons.mp hx with hx | hx
        · exact Or.inl hx
        · refine Or.inr ⟨hx, ?_⟩
          rcases List.mem_cons.mp hx with hx' | hx'
          · rw [hx']
            exact ne_of_gt h1
          · exact ne_of_gt (lt_trans h1 (hrest x hx'))
      · intro hx
        rcases hx with hx | hx
        · rw [hx]; exact List.mem_cons_self _ _
        · exact List.mem_cons_of_mem _ hx.1
    · by_cases h2 : t = k
      · subst h2
        simp only [insertPoint, if_neg h1, if_pos rfl]
        constructor
        · intro hx
          rcases List.mem_cons.mp hx with hx | hx
          · exact Or.inl hx
          · exact Or.inr ⟨List.mem_cons_of_mem _ hx, ne_of_gt (hrest x hx)⟩
        · intro hx
          rcases hx with hx | hx
          · rw [hx]; exact List.mem_cons_self _ _
          · rcases List.mem_cons.mp hx.1 with hx' | hx'
            · exact absurd (congrArg Prod.fst hx') hx.2
            · exact List.mem_cons_of_mem _ hx'
      · have h3 : k < t := lt_of_le_of_ne (not_lt.mp h1) (Ne.symm h2)
        simp only [insertPoint, if_neg h1, if_neg h2]
        constructor
        · intro hx
          rcases List.mem_cons.mp hx with hx | hx
          · exact Or.inr ⟨by rw [hx]; exact List.mem_cons_self _ _,
              by rw [hx]; exact ne_of_lt h3⟩
          · rcases (ih hs').mp hx with hx' | hx'
            · exact Or.inl hx'
            · exact Or.inr ⟨List.mem_cons_of_mem _ hx'.1, hx'.2⟩
        · intro hx
          rcases hx with hx | hx
          · exact List.mem_cons_of_mem _ ((ih hs').mpr (Or.inl hx))
          · rcases List.mem_cons.mp hx.1 with hx' | hx'
            · rw [hx']; exact List.mem_cons_self _ _
            · exact List.mem_cons_of_mem _ ((ih hs').mpr (Or.inr ⟨hx', hx.2⟩))

/-- `insertPoint` preserves the sortedness invariant. -/
theorem insertPoint_sorted {l : List (T × V)} (hs : SortedPoints l) (t : T)
    (v : V) : SortedPoints (insertPoint t v l) := by
  induction l with
  | nil => simp [insertPoint, SortedPoints]
  | cons a rest ih =>
    obtain ⟨k, w⟩ := a
    have hs' : SortedPoints rest := (List.pairwise_cons.mp hs).2
    have hrest : ∀ p ∈ rest, k < p.1 := (List.pairwise_cons.mp hs).1
    by_cases h1 : t < k
    · simp only [insertPoint, if_pos h1]
      refine List.pairwise_cons.mpr ⟨?_, hs⟩
      intro p hp
      rcases List.mem_cons.mp hp with hp | hp
      · rw [hp]; exact h1
      · exact lt_trans h1 (hrest p hp)
    · by_cases h2 : t = k
      · subst h2
        simp only [insertPoint, if_neg h1, if_pos rfl]
        exact List.pairwise_cons.mpr ⟨hrest, hs'⟩
      · have h3 : k < t := lt_of_le_of_ne (not_lt.mp h1) (Ne.symm h2)
        simp only [insertPoint, if_neg h1, if_neg h2]
        refine List.pairwise_cons.mpr ⟨?_, ih hs'⟩
        intro p hp
        rcases (mem_insertPoint hs').mp hp with hp' | hp'
        · rw [hp']; exact h3
        · exact hrest p hp'.1

/-- Inserting a key that is greater than every present key appends. -/
theorem insertPoint_append {l : List (T × V)} {t : T}
    (h : ∀ p ∈ l, p.1 < t) (v : V) : insertPoint t v l = l ++ [(t, v)] := by
  induction l with
  | nil => simp [insertPoint]
  | cons a rest ih =>
    obtain ⟨k, w⟩ := a
    have hk : k < t := h (k, w) (List.mem_cons_self _ _)
    simp only [insertPoint, if_neg (not_lt.mpr (le_of_lt hk)),
      if_neg (ne_of_gt hk), List.cons_append, List.cons.injEq, true_and]
    exact ih (fun p hp => h p (List.mem_cons_of_mem _ hp))

/-- `set` never changes the default. -/
theorem set_default [DecidableEq V] (S : TimeSeries T V) (t : T) (v : V)
    (c : Bool) : (S.set t v c).default = S.default := by
  unfold TimeSeries.set
  split <;> rfl

/-- `set` with `compact = false` always writes the point. -/
theorem set_not_compact [DecidableEq V] (S : TimeSeries T V) (t : T) (v : V) :
    S.set t v false = ⟨insertPoint t v S.points, S.default⟩ := by
  unfold TimeSeries.set
  rw [if_pos (Or.inr (Or.inl rfl))]

/-- A fold of unconditional `set` calls never changes the default. -/
theorem default_foldl_set {α : Type} [DecidableEq V] (L : List α) (kf : α → T)
    (vf : α → V) : ∀ r : TimeSeries T V,
    (L.foldl (fun r x => r.set (kf x) (vf x) false) r).default = r.default := by
  induction L with
  | nil => intro r; rfl
  | cons x L ih =>
    intro r
    rw [List.foldl_cons, ih]
    exact set_default r (kf x) (vf x) false

/-- Folding unconditional `set` calls over key-increasing items appends the
corresponding points in order. -/
theorem foldl_set_points {α : Type} [DecidableEq V] (kf : α → T) (vf : α → V) :
    ∀ (L : List α) (acc : TimeSeries T V),
    (∀ p ∈ acc.points, ∀ x ∈ L, p.1 < kf x) →
    List.Pairwise (fun a b => kf a < kf b) L →
    L.foldl (fun ts x => ts.set (kf x) (vf x) false) acc =
      ⟨acc.points ++ L.map (fun x => (kf x, vf x)), acc.default⟩ := by
  intro L
  induction L with
  | nil =>
    intro acc _ _
    simp
  | cons x L ih =>
    intro acc hlt hpw
    rw [List.foldl_cons, set_not_compact,
      insertPoint_append (fun p hp => hlt p hp x (List.mem_cons_self _ _)) (vf x)]
    rw [ih ⟨acc.points ++ [(kf x, vf x)], acc.default⟩ ?_ (List.pairwise_cons.mp hpw).2]
    · simp
    · intro p hp y hy
      rcases List.mem_append.mp hp with hp' | hp'
      · exact hlt p hp' y (List.mem_cons_of_mem _ hy)
      · simp only [List.mem_singleton] at hp'
        rw [hp']
        exact (List.pairwise_cons.mp hpw).1 y hy

end InsertLemmas

section Claim1

/-- C1, general part: on a sorted series, `get(q, "previous")` returns the
stored value at the greatest stored key `k ≤ q`, and the default when no
stored key is `≤ q`. -/
theorem claim_get_previous_greatest_key (S : TimeSeries T V) (q : T)
    (hs : SortedPoints S.points) :
    ((∃ p ∈ S.points, p.1 ≤ q) →
      ∃ p ∈ S.points, p.1 ≤ q ∧ (∀ x ∈ S.points, x.1 ≤ q → x.1 ≤ p.1) ∧
        S.get q = p.2) ∧
    ((∀ p ∈ S.points, ¬ p.1 ≤ q) → S.get q = S.default) := by
  constructor
  · intro h
    exact get_previous_max_of_exists hs h
  · intro h
    exact get_previous_eq_default hs h

/-- The time series of scenario S1: `{1: 2, 2: 3, 6: 1, 8: 4}` with default
`None`, over rational times and `int`-or-`None` values. -/
def exC1 : TimeSeries ℚ (Option ℤ) :=
  ⟨[(1, some 2), (2, some 3), (6, some 1), (8, some 4)], none⟩

/-- Witness for C1 at the S1 series: the concrete lookups of the claim
(`mkRat 3 2` is the query time `1.5`), and an application of the general
theorem at that query time. -/
theorem claim_get_previous_greatest_key_witness :
    (SortedPoints exC1.points ∧
      exC1.get 0 = none ∧ exC1.get 1 = some 2 ∧ exC1.get (mkRat 3 2) = some 2 ∧
      exC1.get 7 = some 1 ∧ exC1.get 10 = some 4) ∧
    (((∃ p ∈ exC1.points, p.1 ≤ mkRat 3 2) →
      ∃ p ∈ exC1.points, p.1 ≤ mkRat 3 2 ∧
        (∀ x ∈ exC1.points, x.1 ≤ mkRat 3 2 → x.1 ≤ p.1) ∧
        exC1.get (mkRat 3 2) = p.2) ∧
    ((∀ p ∈ exC1.points, ¬ p.1 ≤ mkRat 3 2) → exC1.get (mkRat 3 2) = exC1.default)) :=
  ⟨⟨by decide, by decide, by decide, by decide, by decide, by decide⟩,
    claim_get_previous_greatest_key exC1 (mkRat 3 2) (by decide)⟩

end Claim1

section Claim8

/-- The empty series with integer default `0`, on which compacted `set`
does not skip the write. -/
def exC8 : TimeSeries ℚ ℤ := ⟨[], 0⟩

/-- C8 counterexample: on the empty series with default `0`, `get(5) == 0`
already holds, yet `set(5, 0, compact=True)` stores the point — the
`len(self) == 0` disjunct in `set` forces the write, so the stored key set
changes. -/
theorem claim_set_compact_counterexample :
    exC8.get 5 = 0 ∧ exC8.default = 0 ∧
      (exC8.set 5 0 true).points = [(5, 0)] ∧
      (exC8.set 5 0 true).points ≠ exC8.points := by
  refine ⟨by decide, rfl, by decide, by decide⟩

/-- C8 (amended): on a series with at least one measurement, if
`get(t, "previous") = v` already holds then `set(t, v, compact=True)` is a
no-op; on an empty series the point is always written, even when `v` equals
the default. -/
theorem claim_set_compact_skips (S : TimeSeries T V) [DecidableEq V] (t : T)
    (v : V) (hne : S.points ≠ []) (hv : S.get t = v) :
    S.set t v true = S := by
  unfold TimeSeries.set
  rw [if_neg]
  push_neg
  refine ⟨?_, ?_, ?_⟩
  · intro h
    exact hne (List.length_eq_zero.mp h)
  · simp
  · intro _
    exact hv

/-- The one-point series used to witness the amended C8. -/
def exC8b : TimeSeries ℚ ℤ := ⟨[(1, 2)], 0⟩

/-- Witness for the amended C8: a non-empty series where the compacted `set`
at an already-correct value is skipped. -/
theorem claim_set_compact_skips_witness :
    exC8b.points ≠ [] ∧ exC8b.get 3 = 2 ∧ exC8b.set 3 2 true = exC8b :=
  ⟨by decide, by decide, claim_set_compact_skips exC8b 3 2 (by decide) (by decide)⟩

end Claim8

section Claim10

/-- `TimeSeries.operation`: elementwise combination of two series.  The
result is built from `TimeSeries(default=default)` where `default` is the
function's own argument (`None` in Python when not supplied) — the defaults
of the operands play no role in it. -/
def TimeSeries.operation [DecidableEq V] (A B : TimeSeries T V)
    (f : V → V → V) (default : V) : TimeSeries T V :=
  let r0 : TimeSeries T V := ⟨[], default⟩
  let r1 := A.points.foldl (fun r p => r.set p.1 (f p.2 (B.get p.1)) false) r0
  B.points.foldl (fun r p => r.set p.1 (f (A.get p.1) p.2) false) r1

/-- Subtraction on the dynamic `int`-or-`None` value universe: the Python
lambda `x - y` of `difference` (on `None` operands Python raises; the
claims only evaluate it on `int` values, and only the result's default is at
stake here). -/
def optionSub (x y : Option ℤ) : Option ℤ :=
  match x, y with
  | some a, some b => some (a - b)
  | _, _ => none

/-- `TimeSeries.difference`: `self.operation(other, lambda x, y: x - y)` —
no `default` argument is passed, so the result's default is `None`. -/
def TimeSeries.difference (A B : TimeSeries T (Option ℤ)) :
    TimeSeries T (Option ℤ) :=
  A.operation B optionSub none

/-- Count of consecutive duplicates: the groups produced by
`itertools.groupby` on a sorted event list, with the running total of event
counts.  Returns the `(time, running_total)` pairs written by
`cumulative_sum`. -/
def cumGroups : List T → ℕ → List (T × ℕ)
  | [], _ => []
  | t :: rest, n =>
    let m := n + 1 + (rest.takeWhile (fun s => s == t)).length
    (t, m) :: cumGroups (rest.dropWhile (fun s => s == t)) m
termination_by l _ => l.length
decreasing_by
  simp only [List.length_cons]
  exact Nat.lt_succ_of_le (List.dropWhile_sublist _).length_le

/-- `EventSeries.cumulative_sum`: a `TimeSeries` with default `0` where each
distinct event time maps to the running total of events so far. -/
def cumulative_sum (es : List T) : TimeSeries T ℕ :=
  (cumGroups es 0).foldl (fun ts p => ts.set p.1 p.2 false) ⟨[], 0⟩

/-- `cumulative_sum` in the dynamic `int`-or-`None` value universe (values
`some count`, default `some 0`), the form in which `count_active` subtracts
two cumulative-count series. -/
def cumulative_sumZ (es : List T) : TimeSeries T (Option ℤ) :=
  (cumGroups es 0).foldl (fun ts p => ts.set p.1 (some (p.2 : ℤ)) false)
    ⟨[], some 0⟩

/-- `EventSeries.count_active`: `es_open.cumsum() - es_closed.cumsum()`. -/
def count_active (es_open es_closed : List T) : TimeSeries T (Option ℤ) :=
  (cumulative_sumZ es_open).difference (cumulative_sumZ es_closed)

/-- C10: the default of `operation`'s result is the `default` argument of
`operation` (`None` when not supplied) regardless of the operand defaults;
hence `difference` always yields a `None` default and `count_active` returns
a series whose default is `None` rather than `0`. -/
theorem claim_operation_default [DecidableEq V] :
    (∀ (A B : TimeSeries T V) (f : V → V → V) (d : V),
      (A.operation B f d).default = d) ∧
    (∀ A B : TimeSeries T (Option ℤ), (A.difference B).default = none) ∧
    (∀ es_open es_closed : List T,
      (count_active es_open es_closed).default = none) := by
  have hop : ∀ (A B : TimeSeries T V) (f : V → V → V) (d : V),
      (A.operation B f d).default = d := by
    intro A B f d
    unfold TimeSeries.operation
    rw [default_foldl_set B.points Prod.fst (fun p => f (A.get p.1) p.2),
      default_foldl_set A.points Prod.fst (fun p => f p.2 (B.get p.1))]
  refine ⟨hop, ?_, ?_⟩
  · intro A B
    unfold TimeSeries.difference
    have h : ∀ (A B : TimeSeries T (Option ℤ)) (f : Option ℤ → Option ℤ → Option ℤ)
        (d : Option ℤ), (A.operation B f d).default = d := by
      intro A B f d
      unfold TimeSeries.operation
      rw [default_foldl_set B.points Prod.fst (fun p => f (A.get p.1) p.2),
        default_foldl_set A.points Prod.fst (fun p => f p.2 (B.get p.1))]
    exact h A B optionSub none
  · intro es_open es_closed
    unfold count_active TimeSeries.difference
    have h : ∀ (A B : TimeSeries T (Option ℤ)) (f : Option ℤ → Option ℤ → Option ℤ)
        (d : Option ℤ), (A.operation B f d).default = d := by
      intro A B f d
      unfold TimeSeries.operation
      rw [default_foldl_set B.points Prod.fst (fun p => f (A.get p.1) p.2),
        default_foldl_set A.points Prod.fst (fun p => f p.2 (B.get p.1))]
    exact h _ _ optionSub none

end Claim10

section Claim2

/-- `_value_function(None)`: no value filter, every period is yielded. -/
def noFilter : T → T → V → Bool := fun t0_ t1_ value_ => true

/-- `_value_function(value)` for a constant: keep only the periods whose
value equals the constant. -/
def constFilter [DecidableEq V] (value : V) : T → T → V → Bool :=
  fun t0_ t1_ value_ => value_ == value

/-- The loop of `iterperiods`: walk the in-window keys, yielding
`(interval_t0, interval_t1, interval_value)` for each and re-reading the
value at each new start (`self[interval_t0]`), then yield the final period
up to `end` when it is non-degenerate. -/
def periodsLoop (S : TimeSeries T V) (pred : T → T → V → Bool) (end_ : T) :
    T → V → List (T × V) → List (T × T × V)
  | t0, v, [] => if t0 < end_ ∧ pred t0 end_ v = true then [(t0, end_, v)] else []
  | t0, v, (k, _w) :: rest =>
    (if pred t0 k v = true then [(t0, k, v)] else []) ++
      periodsLoop S pred end_ k (S.get_previous k) rest

/-- `TimeSeries.iterperiods`: bisect to the window `(start, end]`, seed the
running value with the value in force at `start`, and walk the islice.
`_check_boundaries`' requirement `start < end` appears as a hypothesis of the
theorems about it. -/
def TimeSeries.iterperiods (S : TimeSeries T V) (start end_ : T)
    (pred : T → T → V → Bool) : List (T × T × V) :=
  let start_index := bisect_right S.points start
  let start_value :=
    if 0 < start_index then
      ((S.points[start_index - 1]?).map Prod.snd).getD S.default
    else S.default
  let end_index := bisect_right S.points end_
  periodsLoop S pred end_ start start_value
    ((S.points.take end_index).drop start_index)

/-- Taking the first `bisect_right e` elements of a sorted list keeps
exactly the pairs with key `≤ e`. -/
theorem take_countP_eq_filter {l : List (T × V)} (hs : SortedPoints l)
    (e : T) :
    l.take (l.countP (fun p => decide (p.1 ≤ e))) =
      l.filter (fun p => decide (p.1 ≤ e)) := by
  induction l with
  | nil => simp
  | cons a rest ih =>
    have hs' : SortedPoints rest := (List.pairwise_cons.mp hs).2
    have hrest : ∀ p ∈ rest, a.1 < p.1 := (List.pairwise_cons.mp hs).1
    by_cases ha : a.1 ≤ e
    · have hcount : (a :: rest).countP (fun p => decide (p.1 ≤ e)) =
          rest.countP (fun p => decide (p.1 ≤ e)) + 1 := by
        rw [List.countP_cons]
        simp [ha]
      rw [hcount, List.take_succ_cons, List.filter_cons_of_pos (by simpa using ha),
        ih hs']
    · have hall : ∀ p ∈ a :: rest, ¬ p.1 ≤ e := by
        intro p hp
        rcases List.mem_cons.mp hp with h | h
        · rw [h]; exact ha
        · intro hle
          exact ha (le_of_lt (lt_of_lt_of_le (hrest p h) hle))
      have hcount : (a :: rest).countP (fun p => decide (p.1 ≤ e)) = 0 := by
        rw [List.countP_eq_zero]
        intro p hp
        simpa using hall p hp
      have hfilter : (a :: rest).filter (fun p => decide (p.1 ≤ e)) = [] := by
        rw [List.filter_eq_nil_iff]
        intro p hp
        simpa using hall p hp
      rw [hcount, hfilter, List.take_zero]

/-- Dropping the first `bisect_right s` elements of a sorted list keeps
exactly the pairs with key `> s`. -/
theorem drop_countP_eq_filter {l : List (T × V)} (hs : SortedPoints l)
    (s : T) :
    l.drop (l.countP (fun p => decide (p.1 ≤ s))) =
      l.filter (fun p => decide (s < p.1)) := by
  induction l with
  | nil => simp
  | cons a rest ih =>
    have hs' : SortedPoints rest := (List.pairwise_cons.mp hs).2
    have hrest : ∀ p ∈ rest, a.1 < p.1 := (List.pairwise_cons.mp hs).1
    by_cases ha : a.1 ≤ s
    · have hcount : (a :: rest).countP (fun p => decide (p.1 ≤ s)) =
          rest.countP (fun p => decide (p.1 ≤ s)) + 1 := by
        rw [List.countP_cons]
        simp [ha]
      rw [hcount, List.drop_succ_cons,
        List.filter_cons_of_neg (by simpa using not_lt.mpr ha), ih hs']
    · have hall : ∀ p ∈ a :: rest, s < p.1 := by
        intro p hp
        rcases List.mem_cons.mp hp with h | h
        · rw [h]; exact lt_of_not_le ha
        · exact lt_trans (lt_of_not_le ha) (hrest p h)
      have hcount : (a :: rest).countP (fun p => decide (p.1 ≤ s)) = 0 := by
        rw [List.countP_eq_zero]
        intro p hp
        simpa using not_le.mpr (hall p hp)
      have hfilter : (a :: rest).filter (fun p => decide (s < p.1)) =
          a :: rest := by
        rw [List.filter_eq_self]
        intro p hp
        simpa using hall p hp
      rw [hcount, List.drop_zero, hfilter]

/-- The islice between the two bisection indices of a sorted list is the
filter to keys in `(s, e]`. -/
theorem islice_eq_filter {l : List (T × V)} (hs : SortedPoints l) {s e : T}
    (hse : s ≤ e) :
    (l.take (l.countP (fun p => decide (p.1 ≤ e)))).drop
        (l.countP (fun p => decide (p.1 ≤ s))) =
      l.filter (fun p => decide (s < p.1) && decide (p.1 ≤ e)) := by
  rw [take_countP_eq_filter hs e]
  have hcount : l.countP (fun p => decide (p.1 ≤ s)) =
      (l.filter (fun p => decide (p.1 ≤ e))).countP
        (fun p => decide (p.1 ≤ s)) := by
    rw [List.countP_filter]
    apply List.countP_congr
    intro p _
    by_cases h : p.1 ≤ s
    · simp [h, le_trans h hse]
    · simp [h]
  rw [hcount, drop_countP_eq_filter (List.Pairwise.filter _ hs) s,
    List.filter_filter]

/-- Periods tile the interval `[a, b)`: each period is non-degenerate,
starts where the previous one ended, the first starts at `a`, the last ends
at `b`, and an empty list is allowed only when `a = b`. -/
def Tiles : T → T → List (T × T × V) → Prop
  | a, b, [] => a = b
  | a, b, (x, y, _) :: rest => x = a ∧ a < y ∧ Tiles y b rest

theorem Tiles.ne_nil {a b : T} {ps : List (T × T × V)} (h : Tiles a b ps)
    (hab : a < b) : ps ≠ [] := by
  cases ps with
  | nil => exact absurd h (ne_of_lt hab)
  | cons p rest => simp

theorem Tiles.pos {a b : T} : ∀ {ps : List (T × T × V)}, Tiles a b ps →
    ∀ p ∈ ps, p.1 < p.2.1 := by
  intro ps
  induction ps generalizing a with
  | nil => intro _ p hp; cases hp
  | cons x rest ih =>
    obtain ⟨t0, t1, v⟩ := x
    rintro ⟨h1, h2, h3⟩ p hp
    rcases List.mem_cons.mp hp with hp | hp
    · rw [hp]
      simpa [h1] using h2
    · exact ih h3 p hp

theorem Tiles.head_eq {a b : T} {ps : List (T × T × V)} (h : Tiles a b ps)
    (hne : ps ≠ []) : (ps.head?).map Prod.fst = some a := by
  cases ps with
  | nil => exact absurd rfl hne
  | cons x rest =>
    obtain ⟨t0, t1, v⟩ := x
    obtain ⟨h1, _, _⟩ := h
    simp [h1]

theorem Tiles.last_eq {a b : T} : ∀ {ps : List (T × T × V)}, Tiles a b ps →
    ps ≠ [] → (ps.getLast?).map (fun p => p.2.1) = some b := by
  intro ps
  induction ps generalizing a with
  | nil => intro _ hne; exact absurd rfl hne
  | cons x rest ih =>
    obtain ⟨t0, t1, v⟩ := x
    rintro ⟨h1, h2, h3⟩ _
    cases rest with
    | nil =>
      have hb : t1 = b := h3
      simp [hb]
    | cons y rest' =>
      rw [List.getLast?_cons_cons]
      exact ih h3 (by simp)

theorem Tiles.chain {a b : T} : ∀ {ps : List (T × T × V)}, Tiles a b ps →
    List.Chain' (fun p q_ => p.2.1 = q_.1) ps := by
  intro ps
  induction ps generalizing a with
  | nil => intro _; exact List.chain'_nil
  | cons x rest ih =>
    obtain ⟨t0, t1, v⟩ := x
    rintro ⟨h1, h2, h3⟩
    cases rest with
    | nil => simp
    | cons y rest' =>
      refine List.chain'_cons.mpr ⟨?_, ih h3⟩
      exact h3.1.symm

/-- The invariant of the `iterperiods` loop: starting at `t0` with the value
in force at `t0` and the key list equal to the in-window islice, the loop
tiles `[t0, end)` and each yielded period carries the value of the series
throughout the period. -/
theorem periodsLoop_spec (S : TimeSeries T V) (end_ : T)
    (hs : SortedPoints S.points) :
    ∀ (ks : List (T × V)) (t0 : T),
    ks = S.points.filter (fun p => decide (t0 < p.1) && decide (p.1 ≤ end_)) →
    t0 ≤ end_ →
    Tiles t0 end_ (periodsLoop S noFilter end_ t0 (S.get_previous t0) ks) ∧
    ∀ pr ∈ periodsLoop S noFilter end_ t0 (S.get_previous t0) ks,
      ∀ t, pr.1 ≤ t → t < pr.2.1 → S.get_previous t = pr.2.2 := by
  intro ks
  induction ks with
  | nil =>
    intro t0 hflt hle
    have hloop : periodsLoop S noFilter end_ t0 (S.get_previous t0) [] =
        if t0 < end_ then [(t0, end_, S.get_previous t0)] else [] := by
      simp [periodsLoop, noFilter]
    by_cases hlt : t0 < end_
    · rw [hloop, if_pos hlt]
      constructor
      · exact ⟨rfl, hlt, rfl⟩
      · intro pr hpr t ht1 ht2
        simp only [List.mem_singleton] at hpr
        subst hpr
        simp only at ht1 ht2 ⊢
        refine get_previous_stable hs ht1 ?_
        intro p hp hcontra
        have : p ∈ S.points.filter
            (fun p => decide (t0 < p.1) && decide (p.1 ≤ end_)) := by
          refine List.mem_filter.mpr ⟨hp, ?_⟩
          simp only [Bool.and_eq_true, decide_eq_true_eq]
          exact ⟨hcontra.1, le_of_lt (lt_of_le_of_lt hcontra.2 ht2)⟩
        rw [← hflt] at this
        cases this
    · have heq : t0 = end_ := le_antisymm hle (not_lt.mp hlt)
      rw [hloop, if_neg hlt]
      constructor
      · exact heq
      · intro pr hpr
        cases hpr
  | cons kw rest ih =>
    intro t0 hflt hle
    obtain ⟨k, w⟩ := kw
    have hmem : (k, w) ∈ S.points.filter
        (fun p => decide (t0 < p.1) && decide (p.1 ≤ end_)) := by
      rw [← hflt]; exact List.mem_cons_self _ _
    have hk : t0 < k ∧ k ≤ end_ := by
      have := List.of_mem_filter hmem
      simpa using this
    have hFsorted : SortedPoints ((k, w) :: rest) := by
      rw [hflt]
      exact List.Pairwise.filter _ hs
    have hrest_gt : ∀ p ∈ rest, k < p.1 := (List.pairwise_cons.mp hFsorted).1
    have hrest_eq : rest = S.points.filter
        (fun p => decide (k < p.1) && decide (p.1 ≤ end_)) := by
      have h1 : S.points.filter (fun p => decide (k < p.1) && decide (p.1 ≤ end_)) =
          (S.points.filter (fun p => decide (t0 < p.1) && decide (p.1 ≤ end_))).filter
            (fun p => decide (k < p.1)) := by
        rw [List.filter_filter]
        apply List.filter_congr
        intro p _
        by_cases h1 : k < p.1
        · have h2 : t0 < p.1 := lt_trans hk.1 h1
          by_cases h3 : p.1 ≤ end_ <;> simp [h1, h2, h3]
        · simp [h1]
      rw [h1, ← hflt]
      rw [List.filter_cons_of_neg (by simp)]
      rw [List.filter_eq_self.mpr]
      intro p hp
      simpa using hrest_gt p hp
    have hval_head : ∀ t, t0 ≤ t → t < k → S.get_previous t = S.get_previous t0 := by
      intro t ht1 ht2
      refine get_previous_stable hs ht1 ?_
      intro p hp hcontra
      have hpF : p ∈ S.points.filter
          (fun p => decide (t0 < p.1) && decide (p.1 ≤ end_)) := by
        refine List.mem_filter.mpr ⟨hp, ?_⟩
        simp only [Bool.and_eq_true, decide_eq_true_eq]
        exact ⟨hcontra.1, le_trans hcontra.2 (le_trans (le_of_lt ht2) hk.2)⟩
      rw [← hflt] at hpF
      rcases List.mem_cons.mp hpF with h | h
      · rw [h] at hcontra
        exact absurd hcontra.2 (not_le.mpr ht2)
      · exact absurd hcontra.2 (not_le.mpr (lt_of_lt_of_le ht2 (le_of_lt (hrest_gt p h))))
    obtain ⟨ihT, ihV⟩ := ih k hrest_eq hk.2
    have hloop : periodsLoop S noFilter end_ t0 (S.get_previous t0) ((k, w) :: rest) =
        (t0, k, S.get_previous t0) ::
          periodsLoop S noFilter end_ k (S.get_previous k) rest := by
      simp [periodsLoop, noFilter]
    rw [hloop]
    constructor
    · exact ⟨rfl, hk.1, ihT⟩
    · intro pr hpr t ht1 ht2
      rcases List.mem_cons.mp hpr with hpr | hpr
      · subst hpr
        simp only at ht1 ht2 ⊢
        exact hval_head t ht1 ht2
      · exact ihV pr hpr t ht1 ht2

/-- C2: on a sorted series with `start < end`, the unfiltered
`iterperiods(start, end)` yields a non-empty sequence of periods with
`t0 < t1`, the first starting at `start`, the last ending at `end`,
successive periods contiguous, and the period value equal to
`get(t, "previous")` for every `t` in the period. -/
theorem claim_iterperiods_tiling (S : TimeSeries T V) (start end_ : T)
    (hs : SortedPoints S.points) (hlt : start < end_) :
    S.iterperiods start end_ noFilter ≠ [] ∧
    (∀ p ∈ S.iterperiods start end_ noFilter, p.1 < p.2.1) ∧
    ((S.iterperiods start end_ noFilter).head?).map Prod.fst = some start ∧
    ((S.iterperiods start end_ noFilter).getLast?).map (fun p => p.2.1) =
      some end_ ∧
    List.Chain' (fun p q_ => p.2.1 = q_.1) (S.iterperiods start end_ noFilter) ∧
    (∀ p ∈ S.iterperiods start end_ noFilter, ∀ t, p.1 ≤ t → t < p.2.1 →
      S.get t = p.2.2) := by
  have hrw : S.iterperiods start end_ noFilter =
      periodsLoop S noFilter end_ start (S.get_previous start)
        (S.points.filter (fun p => decide (start < p.1) && decide (p.1 ≤ end_))) := by
    show periodsLoop S noFilter end_ start (S.get_previous start)
        ((S.points.take (bisect_right S.points end_)).drop
          (bisect_right S.points start)) = _
    unfold bisect_right
    rw [islice_eq_filter hs (le_of_lt hlt)]
  obtain ⟨hT, hV⟩ := periodsLoop_spec S end_ hs
    (S.points.filter (fun p => decide (start < p.1) && decide (p.1 ≤ end_)))
    start rfl (le_of_lt hlt)
  rw [hrw]
  have hne := hT.ne_nil hlt
  exact ⟨hne, hT.pos, hT.head_eq hne, hT.last_eq hne, hT.chain, hV⟩

/-- Witness for C2 at the S1 series over the window `[0, 10)`. -/
theorem claim_iterperiods_tiling_witness :
    exC1.iterperiods 0 10 noFilter ≠ [] ∧
    (∀ p ∈ exC1.iterperiods 0 10 noFilter, p.1 < p.2.1) ∧
    ((exC1.iterperiods 0 10 noFilter).head?).map Prod.fst = some 0 ∧
    ((exC1.iterperiods 0 10 noFilter).getLast?).map (fun p => p.2.1) =
      some 10 ∧
    List.Chain' (fun p q_ => p.2.1 = q_.1) (exC1.iterperiods 0 10 noFilter) ∧
    (∀ p ∈ exC1.iterperiods 0 10 noFilter, ∀ t, p.1 ≤ t → t < p.2.1 →
      exC1.get t = p.2.2) :=
  claim_iterperiods_tiling exC1 0 10 (by decide) (by decide)

end Claim2

section Claim4

/-- `TimeSeries.set_interval`: raise `ValueError` when `start >= end`;
otherwise capture `end_value = self[end]`, delete every stored key strictly
between `start` and `end`, then `set(start, value, compact)` and
`set(end, end_value, compact)`. -/
def TimeSeries.set_interval [DecidableEq V] (S : TimeSeries T V)
    (start end_ : T) (value : V) (compact : Bool) :
    Except String (TimeSeries T V) :=
  if start ≥ end_ then
    Except.error "start must be less than end"
  else
    let end_value := S.get end_
    let pruned : TimeSeries T V :=
      ⟨S.points.filter (fun p => !(decide (start < p.1) && decide (p.1 < end_))),
        S.default⟩
    Except.ok ((pruned.set start value compact).set end_ end_value compact)

/-- C4: on a sorted series with `start < end`, `set_interval` makes the
function equal `v` on `[start, end)`, keeps the pre-call value at `end` and
at every query outside `[start, end]`, and removes every stored key strictly
inside the interval; with `start >= end` it fails and (the call returning an
error) leaves the series unchanged. -/
theorem claim_set_interval [DecidableEq V] (S : TimeSeries T V) (a b : T)
    (v : V) (hs : SortedPoints S.points) :
    (b ≤ a → S.set_interval a b v false =
      Except.error "start must be less than end") ∧
    (a < b → ∃ S2, S.set_interval a b v false = Except.ok S2 ∧
      SortedPoints S2.points ∧
      (∀ q, a ≤ q → q < b → S2.get q = v) ∧
      S2.get b = S.get b ∧
      (∀ q, q < a ∨ b < q → S2.get q = S.get q) ∧
      (∀ k, a < k → k < b → ∀ w : V, (k, w) ∉ S2.points)) := by
  constructor
  · intro hba
    unfold TimeSeries.set_interval
    rw [if_pos hba]
  · intro hab
    set P := S.points.filter (fun p => !(decide (a < p.1) && decide (p.1 < b)))
      with hPdef
    have hP : SortedPoints P := List.Pairwise.filter _ hs
    have hMs : SortedPoints (insertPoint a v P) := insertPoint_sorted hP a v
    have hS2s : SortedPoints (insertPoint b (S.get b) (insertPoint a v P)) :=
      insertPoint_sorted hMs b _
    have hPmem : ∀ x : T × V, x ∈ P ↔ x ∈ S.points ∧ ¬(a < x.1 ∧ x.1 < b) := by
      intro x
      constructor
      · intro hx
        have h1 := List.mem_of_mem_filter hx
        have h2 := List.of_mem_filter hx
        refine ⟨h1, ?_⟩
        intro hcon
        simp [hcon.1, hcon.2] at h2
      · rintro ⟨h1, h2⟩
        refine List.mem_filter.mpr ⟨h1, ?_⟩
        rcases not_and_or.mp h2 with h | h
        · simp [h]
        · simp [h]
    have hmem2 : ∀ x : T × V,
        x ∈ insertPoint b (S.get b) (insertPoint a v P) ↔
          x = (b, S.get b) ∨ (x ∈ insertPoint a v P ∧ x.1 ≠ b) :=
      fun x => mem_insertPoint hMs
    have hmem1 : ∀ x : T × V, x ∈ insertPoint a v P ↔
        x = (a, v) ∨ (x ∈ P ∧ x.1 ≠ a) := fun x => mem_insertPoint hP
    have hok : S.set_interval a b v false =
        Except.ok ⟨insertPoint b (S.get b) (insertPoint a v P), S.default⟩ := by
      unfold TimeSeries.set_interval
      rw [if_neg (not_le.mpr hab)]
      show Except.ok ((TimeSeries.set ⟨P, S.default⟩ a v false).set b
        (S.get b) false) = _
      rw [set_not_compact, set_not_compact]
    refine ⟨⟨insertPoint b (S.get b) (insertPoint a v P), S.default⟩, hok,
      hS2s, ?_, ?_, ?_, ?_⟩
    · intro q hq1 hq2
      have hmemA : (a, v) ∈ insertPoint b (S.get b) (insertPoint a v P) :=
        (hmem2 _).mpr (Or.inr ⟨(hmem1 _).mpr (Or.inl rfl), ne_of_lt hab⟩)
      refine get_eq_max hS2s hmemA hq1 ?_
      intro x hx hxq
      rcases (hmem2 x).mp hx with hx1 | ⟨hx1, hxb⟩
      · rw [hx1] at hxq
        exact absurd hxq (not_le.mpr hq2)
      · rcases (hmem1 x).mp hx1 with hx2 | ⟨hxP, hxa⟩
        · rw [hx2]
        · have hnb : x.1 < b := lt_of_le_of_lt hxq hq2
          have hout := ((hPmem x).mp hxP).2
          by_contra hcon
          exact hout ⟨lt_of_not_le hcon, hnb⟩
    · have hmemB : (b, S.get b) ∈ insertPoint b (S.get b) (insertPoint a v P) :=
        (hmem2 _).mpr (Or.inl rfl)
      exact get_eq_max hS2s hmemB (le_refl b) (fun x _ hxq => hxq)
    · intro q hq
      rcases hq with hq | hq
      · by_cases hex : ∃ p ∈ S.points, p.1 ≤ q
        · obtain ⟨p, hpMem, hpLe, hpMax, hpGet⟩ :=
            get_previous_max_of_exists hs hex
          have hpa : p.1 < a := lt_of_le_of_lt hpLe hq
          have hpP : p ∈ P := (hPmem p).mpr
            ⟨hpMem, fun hc => absurd hc.1 (not_lt.mpr (le_of_lt hpa))⟩
          have hpS2 : p ∈ insertPoint b (S.get b) (insertPoint a v P) :=
            (hmem2 p).mpr (Or.inr ⟨(hmem1 p).mpr (Or.inr ⟨hpP, ne_of_lt hpa⟩),
              ne_of_lt (lt_trans hpa hab)⟩)
          have h2 : TimeSeries.get
              ⟨insertPoint b (S.get b) (insertPoint a v P), S.default⟩ q = p.2 := by
            refine get_eq_max hS2s hpS2 hpLe ?_
            intro x hx hxq
            rcases (hmem2 x).mp hx with hx1 | ⟨hx1, hxb⟩
            · rw [hx1] at hxq
              exact absurd hxq (not_le.mpr (lt_trans hq hab))
            · rcases (hmem1 x).mp hx1 with hx2 | ⟨hxP, hxa⟩
              · rw [hx2] at hxq
                exact absurd hxq (not_le.mpr hq)
              · exact hpMax x ((hPmem x).mp hxP).1 hxq
          rw [h2]
          exact hpGet.symm
        · push_neg at hex
          have h1 : S.get q = S.default :=
            get_eq_default hs (fun p hp => not_le.mpr (hex p hp))
          have h2 : TimeSeries.get
              ⟨insertPoint b (S.get b) (insertPoint a v P), S.default⟩ q =
              S.default := by
            refine get_eq_default hS2s ?_
            intro x hx
            rcases (hmem2 x).mp hx with hx1 | ⟨hx1, hxb⟩
            · rw [hx1]
              exact not_le.mpr (lt_trans hq hab)
            · rcases (hmem1 x).mp hx1 with hx2 | ⟨hxP, hxa⟩
              · rw [hx2]
                exact not_le.mpr hq
              · exact not_le.mpr (hex x ((hPmem x).mp hxP).1)
          rw [h1, h2]
      · by_cases hex : ∃ p ∈ S.points, b < p.1 ∧ p.1 ≤ q
        · obtain ⟨p0, hp0Mem, hp0b, hp0q⟩ := hex
          obtain ⟨p, hpMem, hpLe, hpMax, hpGet⟩ :=
            get_previous_max_of_exists hs ⟨p0, hp0Mem, hp0q⟩
          have hpb : b < p.1 := lt_of_lt_of_le hp0b (hpMax p0 hp0Mem hp0q)
          have hpP : p ∈ P := (hPmem p).mpr
            ⟨hpMem, fun hc => absurd hc.2 (not_lt.mpr (le_of_lt hpb))⟩
          have hpS2 : p ∈ insertPoint b (S.get b) (insertPoint a v P) :=
            (hmem2 p).mpr (Or.inr ⟨(hmem1 p).mpr
              (Or.inr ⟨hpP, ne_of_gt (lt_trans hab hpb)⟩), ne_of_gt hpb⟩)
          have h2 : TimeSeries.get
              ⟨insertPoint b (S.get b) (insertPoint a v P), S.default⟩ q = p.2 := by
            refine get_eq_max hS2s hpS2 hpLe ?_
            intro x hx hxq
            rcases (hmem2 x).mp hx with hx1 | ⟨hx1, hxb⟩
            · rw [hx1]
              exact le_of_lt hpb
            · rcases (hmem1 x).mp hx1 with hx2 | ⟨hxP, hxa⟩
              · rw [hx2]
                exact le_of_lt (lt_trans hab hpb)
              · exact hpMax x ((hPmem x).mp hxP).1 hxq
          rw [h2]
          exact hpGet.symm
        · push_neg at hex
          have h1 : S.get q = S.get b := by
            refine get_stable hs (le_of_lt hq) ?_
            rintro p hp ⟨hc1, hc2⟩
            exact absurd hc2 (not_le.mpr (hex p hp hc1))
          have hmemB : (b, S.get b) ∈ insertPoint b (S.get b) (insertPoint a v P) :=
            (hmem2 _).mpr (Or.inl rfl)
          have h2 : TimeSeries.get
              ⟨insertPoint b (S.get b) (insertPoint a v P), S.default⟩ q =
              S.get b := by
            refine get_eq_max hS2s hmemB (le_of_lt hq) ?_
            intro x hx hxq
            rcases (hmem2 x).mp hx with hx1 | ⟨hx1, hxb⟩
            · rw [hx1]
            · rcases (hmem1 x).mp hx1 with hx2 | ⟨hxP, hxa⟩
              · rw [hx2]
                exact le_of_lt hab
              · by_contra hcon
                exact absurd hxq
                  (not_le.mpr (hex x ((hPmem x).mp hxP).1 (lt_of_not_le hcon)))
          rw [h1, h2]
    · intro k hk1 hk2 w hw
      rcases (hmem2 (k, w)).mp hw with hx1 | ⟨hx1, hxb⟩
      · have hkb : k = b := congrArg Prod.fst hx1
        exact absurd hkb (ne_of_lt hk2)
      · rcases (hmem1 (k, w)).mp hx1 with hx2 | ⟨hxP, hxa⟩
        · have hka : k = a := congrArg Prod.fst hx2
          exact absurd hka (ne_of_gt hk1)
        · exact ((hPmem (k, w)).mp hxP).2 ⟨hk1, hk2⟩

/-- The series of the `set_interval` docstring example:
`TimeSeries(data=[(1, 5), (3, 2), (5, 4), (6, 1)])`, with default `0`. -/
def exC4 : TimeSeries ℚ ℤ := ⟨[(1, 5), (3, 2), (5, 4), (6, 1)], 0⟩

/-- Witness for C4: `set_interval(2, 6, 3)` on the docstring example gives
`{1: 5, 2: 3, 6: 1}`, and the general theorem applies at those arguments. -/
theorem claim_set_interval_witness :
    (exC4.set_interval 2 6 3 false =
      Except.ok (⟨[(1, 5), (2, 3), (6, 1)], 0⟩ : TimeSeries ℚ ℤ)) ∧
    (((6 : ℚ) ≤ 2 → exC4.set_interval 2 6 3 false =
      Except.error "start must be less than end") ∧
    ((2 : ℚ) < 6 → ∃ S2, exC4.set_interval 2 6 3 false = Except.ok S2 ∧
      SortedPoints S2.points ∧
      (∀ q, (2 : ℚ) ≤ q → q < 6 → S2.get q = 3) ∧
      S2.get 6 = exC4.get 6 ∧
      (∀ q, q < 2 ∨ 6 < q → S2.get q = exC4.get q) ∧
      (∀ k, (2 : ℚ) < k → k < 6 → ∀ w : ℤ, (k, w) ∉ S2.points))) :=
  ⟨by rfl, claim_set_interval exC4 2 6 3 (by decide)⟩

end Claim4

section Claim5

/-- Helper shared by the distribution development: on a sorted series with
`start < end`, the unfiltered `iterperiods` periods tile `[start, end)` and
each period carries the value of the series throughout the period. -/
theorem iterperiods_tiles (S : TimeSeries T V) (start end_ : T)
    (hs : SortedPoints S.points) (hlt : start < end_) :
    Tiles start end_ (S.iterperiods start end_ noFilter) ∧
    ∀ pr ∈ S.iterperiods start end_ noFilter, ∀ t, pr.1 ≤ t → t < pr.2.1 →
      S.get t = pr.2.2 := by
  have hrw : S.iterperiods start end_ noFilter =
      periodsLoop S noFilter end_ start (S.get_previous start)
        (S.points.filter (fun p => decide (start < p.1) && decide (p.1 ≤ end_))) := by
    show periodsLoop S noFilter end_ start (S.get_previous start)
        ((S.points.take (bisect_right S.points end_)).drop
          (bisect_right S.points start)) = _
    unfold bisect_right
    rw [islice_eq_filter hs (le_of_lt hlt)]
  obtain ⟨hT, hV⟩ := periodsLoop_spec S end_ hs
    (S.points.filter (fun p => decide (start < p.1) && decide (p.1 ≤ end_)))
    start rfl (le_of_lt hlt)
  rw [hrw]
  exact ⟨hT, hV⟩

/-- Modelled from the spec: `utils.time_midpoint` is called by
`distribution` but is absent from the `utils.py` revision in the source
tree; the spec says the histogram value for a period `(t0, t1)` is the
series value "at the period's midpoint", so the midpoint is
`(t0 + t1) / 2`. -/
def time_midpoint (t0 t1 : ℚ) : ℚ := (t0 + t1) / 2

/-- `utils.duration_to_number(d, units="seconds")`: a numeric duration is
returned unchanged; wall-clock instants are embedded as rational second
counts, so a difference of two times is already its number of seconds. -/
def duration_to_number (d : ℚ) : ℚ := d

/-- A `Histogram` (a dict from values to weights) viewed as a finite
mapping, embedded as an association list with one entry per value;
`histAdd` is `counter[value] += duration` (a missing key counts as `0`). -/
def histAdd [DecidableEq V] : List (V × ℚ) → V → ℚ → List (V × ℚ)
  | [], value, w => [(value, w)]
  | (k, c) :: rest, value, w =>
    if k = value then (k, c + w) :: rest else (k, c) :: histAdd rest value w

/-- Histogram lookup: `counter[v]`, `0` when the value is absent. -/
def histLookup [DecidableEq V] : List (V × ℚ) → V → ℚ
  | [], _ => 0
  | (k, c) :: rest, v => if k = v then c else histLookup rest v

/-- `Histogram.total`: the sum of all weights. -/
def histTotal (h : List (V × ℚ)) : ℚ := (h.map Prod.snd).sum

/-- `Histogram.normalized`: every weight divided by the total. -/
def histNormalize (h : List (V × ℚ)) : List (V × ℚ) :=
  h.map (fun kv => (kv.1, kv.2 / histTotal h))

/-- `TimeSeries.distribution` with explicit `start`/`end` bounds and no
mask argument: `_check_boundaries` raises when `start >= end` and otherwise
builds the effective two-point mask with `True` at `start` and `False` at
`end`; the outer loop runs over `mask.iterperiods(value=True)` (whose own
default boundaries are the mask's first and last keys, here `start` and
`end`), the inner loop over `self.iterperiods(i_start, i_end)`,
accumulating `counter[self[time_midpoint(t0, t1)]] +=
duration_to_number(t1 - t0)`; `normalized` divides every weight by the
total. -/
def TimeSeries.distribution [DecidableEq V] (S : TimeSeries ℚ V)
    (start end_ : ℚ) (normalized : Bool) : Except String (List (V × ℚ)) :=
  if start ≥ end_ then
    Except.error "start cant be >= end"
  else
    let mask : TimeSeries ℚ Bool :=
      ((⟨[], false⟩ : TimeSeries ℚ Bool).set start true false).set end_ false
        false
    let counter :=
      (mask.iterperiods start end_ (constFilter true)).foldl
        (fun c mp =>
          (S.iterperiods mp.1 mp.2.1 noFilter).foldl
            (fun c2 pr =>
              let duration := duration_to_number (pr.2.1 - pr.1)
              let midpoint := time_midpoint pr.1 pr.2.1
              let value := S.get midpoint
              histAdd c2 value duration)
            c)
        []
    Except.ok (if normalized then histNormalize counter else counter)

/-- The effective mask of a resolved window `[start, end)` has exactly one
`True` period, the whole window. -/
theorem twoPointMask_periods {start end_ : ℚ} (h : start < end_) :
    (((⟨[], false⟩ : TimeSeries ℚ Bool).set start true false).set end_ false
        false).iterperiods start end_ (constFilter true) =
      [(start, end_, true)] := by
  have hip : insertPoint end_ false (insertPoint start true
      ([] : List (ℚ × Bool))) = [(start, true), (end_, false)] := by
    show insertPoint end_ false [(start, true)] = _
    simp only [insertPoint]
    rw [if_neg (not_lt.mpr (le_of_lt h)), if_neg h.ne']
  have hmask : ((⟨[], false⟩ : TimeSeries ℚ Bool).set start true false).set
      end_ false false = ⟨[(start, true), (end_, false)], false⟩ := by
    rw [set_not_compact, set_not_compact]
    simp [hip]
  rw [hmask]
  have hb1 : bisect_right [(start, true), (end_, false)] start = 1 := by
    unfold bisect_right
    rw [List.countP_cons, List.countP_cons, List.countP_nil]
    simp [not_le.mpr h]
  have hb2 : bisect_right [(start, true), (end_, false)] end_ = 2 := by
    unfold bisect_right
    rw [List.countP_cons, List.countP_cons, List.countP_nil]
    simp [le_of_lt h]
  simp only [TimeSeries.iterperiods, hb1, hb2]
  norm_num
  simp only [periodsLoop]
  rw [if_pos (show constFilter true start end_ true = true from rfl),
    if_neg (show ¬(end_ < end_ ∧ constFilter true end_ end_
      ((⟨[(start, true), (end_, false)], false⟩ :
        TimeSeries ℚ Bool).get_previous end_) = true) from
      fun hc => lt_irrefl _ hc.1)]
  simp

theorem histLookup_nil [DecidableEq V] (v : V) :
    histLookup ([] : List (V × ℚ)) v = 0 := rfl

theorem histTotal_nil : histTotal ([] : List (V × ℚ)) = 0 := rfl

theorem histLookup_histAdd [DecidableEq V] (h : List (V × ℚ)) (k : V)
    (w : ℚ) (v : V) :
    histLookup (histAdd h k w) v =
      histLookup h v + (if v = k then w else 0) := by
  induction h with
  | nil =>
    by_cases hkv : k = v
    · subst hkv; simp [histAdd, histLookup]
    · have hvk : ¬ v = k := fun hh => hkv hh.symm
      simp [histAdd, histLookup, hkv, hvk]
  | cons kv rest ih =>
    obtain ⟨a, c⟩ := kv
    by_cases hak : a = k
    · subst hak
      by_cases hav : a = v
      · subst hav; simp [histAdd, histLookup]
      · have hva : ¬ v = a := fun hh => hav hh.symm
        simp [histAdd, histLookup, hav, hva]
    · by_cases hav : a = v
      · subst hav
        have hva : ¬ a = k := hak
        have hka : ¬ k = a := fun hh => hak hh.symm
        simp [histAdd, histLookup, hak, hka, hva]
      · have hva : ¬ v = a := fun hh => hav hh.symm
        simp [histAdd, histLookup, hak, hav, hva, ih]

theorem histTotal_histAdd [DecidableEq V] (h : List (V × ℚ)) (k : V)
    (w : ℚ) : histTotal (histAdd h k w) = histTotal h + w := by
  induction h with
  | nil => simp [histAdd, histTotal]
  | cons kv rest ih =>
    obtain ⟨a, c⟩ := kv
    by_cases hak : a = k
    · simp only [histAdd, if_pos hak, histTotal, List.map_cons, List.sum_cons]
      ring
    · simp only [histAdd, if_neg hak, histTotal, List.map_cons,
        List.sum_cons] at ih ⊢
      rw [ih]
      ring

/-- The accumulation loop of `distribution`, abstractly: looking up a value
in the folded histogram gives the initial weight plus the total weight of
the items whose value is that value. -/
theorem foldl_histAdd_lookup [DecidableEq V] {α : Type} (val : α → V)
    (wt : α → ℚ) (v : V) :
    ∀ (ps : List α) (c0 : List (V × ℚ)),
    histLookup (ps.foldl (fun c x => histAdd c (val x) (wt x)) c0) v =
      histLookup c0 v + ((ps.filter (fun x => val x == v)).map wt).sum := by
  intro ps
  induction ps with
  | nil => intro c0; simp
  | cons x ps ih =>
    intro c0
    rw [List.foldl_cons, ih, histLookup_histAdd]
    by_cases hxv : val x = v
    · rw [List.filter_cons_of_pos (by simpa using hxv), List.map_cons,
        List.sum_cons, if_pos hxv.symm]
      ring
    · rw [List.filter_cons_of_neg (by simpa using hxv),
        if_neg (fun hvx => hxv hvx.symm)]
      ring

/-- The total of the folded histogram is the initial total plus the total
weight of all items. -/
theorem foldl_histAdd_total [DecidableEq V] {α : Type} (val : α → V)
    (wt : α → ℚ) :
    ∀ (ps : List α) (c0 : List (V × ℚ)),
    histTotal (ps.foldl (fun c x => histAdd c (val x) (wt x)) c0) =
      histTotal c0 + (ps.map wt).sum := by
  intro ps
  induction ps with
  | nil => intro c0; simp
  | cons x ps ih =>
    intro c0
    rw [List.foldl_cons, ih, histTotal_histAdd, List.map_cons, List.sum_cons]
    ring

theorem histLookup_map_div [DecidableEq V] (tot : ℚ) :
    ∀ (h : List (V × ℚ)) (v : V),
    histLookup (h.map (fun kv => (kv.1, kv.2 / tot))) v =
      histLookup h v / tot := by
  intro h
  induction h with
  | nil => intro v; simp [histLookup, zero_div]
  | cons kv rest ih =>
    obtain ⟨a, c⟩ := kv
    intro v
    by_cases hav : a = v
    · simp [histLookup, hav]
    · simp [histLookup, hav, ih]

theorem histTotal_map_div (tot : ℚ) :
    ∀ h : List (V × ℚ),
    histTotal (h.map (fun kv => (kv.1, kv.2 / tot))) = histTotal h / tot := by
  intro h
  induction h with
  | nil => simp [histTotal, zero_div]
  | cons kv rest ih =>
    obtain ⟨a, c⟩ := kv
    show c / tot + histTotal (rest.map (fun kv => (kv.1, kv.2 / tot))) =
      (c + histTotal rest) / tot
    rw [ih, add_div]

/-- The durations of a tiling of `[a, b)` sum to `b - a`. -/
theorem tiles_duration_sum {b : ℚ} :
    ∀ (ps : List (ℚ × ℚ × V)) (a : ℚ), Tiles a b ps →
    ((ps.map (fun pr => pr.2.1 - pr.1)).sum) = b - a := by
  intro ps
  induction ps with
  | nil =>
    intro a hT
    have hab : a = b := hT
    simp [hab]
  | cons x rest ih =>
    obtain ⟨t0, t1, v⟩ := x
    rintro a ⟨h1, h2, h3⟩
    rw [List.map_cons, List.sum_cons, ih t1 h3, h1]
    ring

theorem time_midpoint_bounds {t0 t1 : ℚ} (h : t0 < t1) :
    t0 ≤ time_midpoint t0 t1 ∧ time_midpoint t0 t1 < t1 := by
  unfold time_midpoint
  constructor <;> linarith

/-- C5: with explicit bounds `start < end` (the effective mask resolving to
the single `True` period `[start, end)`), the unnormalized distribution maps
each value `v` to the total duration (in raw rational units, which embed
wall-clock seconds) of the periods on which the series equals `v`; the
period value is the value of the series throughout the period; the weights
total `end - start`; the normalized distribution divides each weight by
that total, so the normalized weights sum to `1`. -/
theorem claim_distribution [DecidableEq V] (S : TimeSeries ℚ V)
    (start end_ : ℚ) (hs : SortedPoints S.points) (hlt : start < end_) :
    ∃ C, S.distribution start end_ false = Except.ok C ∧
      (∀ v : V, histLookup C v =
        (((S.iterperiods start end_ noFilter).filter
          (fun pr => pr.2.2 == v)).map (fun pr => pr.2.1 - pr.1)).sum) ∧
      (∀ pr ∈ S.iterperiods start end_ noFilter, ∀ t, pr.1 ≤ t → t < pr.2.1 →
        S.get t = pr.2.2) ∧
      histTotal C = end_ - start ∧
      S.distribution start end_ true = Except.ok (histNormalize C) ∧
      (∀ v : V, histLookup (histNormalize C) v =
        histLookup C v / (end_ - start)) ∧
      histTotal (histNormalize C) = 1 := by
  obtain ⟨hT, hV⟩ := iterperiods_tiles S start end_ hs hlt
  set ps := S.iterperiods start end_ noFilter with hps
  set C := ps.foldl
      (fun c2 pr => histAdd c2 (S.get (time_midpoint pr.1 pr.2.1))
        (duration_to_number (pr.2.1 - pr.1))) ([] : List (V × ℚ)) with hC
  have hok : ∀ norm : Bool, S.distribution start end_ norm =
      Except.ok (if norm then histNormalize C else C) := by
    intro norm
    simp only [TimeSeries.distribution]
    rw [if_neg (not_le.mpr hlt), twoPointMask_periods hlt]
    rw [hC, hps]
    rfl
  have hfilter : ∀ v : V, ps.filter
      (fun pr => S.get (time_midpoint pr.1 pr.2.1) == v) =
      ps.filter (fun pr => pr.2.2 == v) := by
    intro v
    apply List.filter_congr
    intro pr hpr
    have hpos : pr.1 < pr.2.1 := hT.pos pr hpr
    have hb := time_midpoint_bounds hpos
    rw [hV pr hpr _ hb.1 hb.2]
  have hlook : ∀ v : V, histLookup C v =
      ((ps.filter (fun pr => pr.2.2 == v)).map
        (fun pr => pr.2.1 - pr.1)).sum := by
    intro v
    rw [hC]
    simp only [duration_to_number]
    have hgen := foldl_histAdd_lookup
      (fun pr : ℚ × ℚ × V => S.get (time_midpoint pr.1 pr.2.1))
      (fun pr : ℚ × ℚ × V => pr.2.1 - pr.1) v ps []
    simp only [histLookup_nil, zero_add] at hgen
    rw [hgen, hfilter v]
  have htot : histTotal C = end_ - start := by
    rw [hC]
    simp only [duration_to_number]
    have hgen := foldl_histAdd_total
      (fun pr : ℚ × ℚ × V => S.get (time_midpoint pr.1 pr.2.1))
      (fun pr : ℚ × ℚ × V => pr.2.1 - pr.1) ps []
    simp only [histTotal_nil, zero_add] at hgen
    rw [hgen]
    exact tiles_duration_sum ps start hT
  refine ⟨C, by simpa using hok false, hlook, hV, htot,
    by simpa using hok true, ?_, ?_⟩
  · intro v
    simp only [histNormalize]
    rw [histLookup_map_div, htot]
  · simp only [histNormalize]
    rw [histTotal_map_div (histTotal C) C, htot,
      div_self (ne_of_gt (sub_pos.mpr hlt))]

/-- The day-keyed example series of C5: values `[1, 0, 1, 0]` at the
start of four consecutive days, in seconds (`86400` seconds per day),
default `0`. -/
def exC5 : TimeSeries ℚ ℤ :=
  ⟨[(0, 1), (86400, 0), (172800, 1), (259200, 0)], 0⟩

/-- Witness for C5: the general theorem applied to the day-keyed example
over the window `[0, 345600)`, plus the concrete histograms: unnormalized
`{1: 172800, 0: 172800}` and normalized `{1: 1/2, 0: 1/2}`. -/
theorem claim_distribution_witness :
    (∃ C, exC5.distribution 0 345600 false = Except.ok C ∧
      (∀ v : ℤ, histLookup C v =
        (((exC5.iterperiods 0 345600 noFilter).filter
          (fun pr => pr.2.2 == v)).map (fun pr => pr.2.1 - pr.1)).sum) ∧
      (∀ pr ∈ exC5.iterperiods 0 345600 noFilter, ∀ t,
        pr.1 ≤ t → t < pr.2.1 → exC5.get t = pr.2.2) ∧
      histTotal C = 345600 - 0 ∧
      exC5.distribution 0 345600 true = Except.ok (histNormalize C) ∧
      (∀ v : ℤ, histLookup (histNormalize C) v =
        histLookup C v / (345600 - 0)) ∧
      histTotal (histNormalize C) = 1) ∧
    exC5.distribution 0 345600 false =
      Except.ok [(1, 172800), (0, 172800)] ∧
    exC5.distribution 0 345600 true =
      Except.ok [(1, mkRat 1 2), (0, mkRat 1 2)] :=
  ⟨claim_distribution exC5 0 345600 (by decide) (by decide),
    by with_unfolding_all rfl, by with_unfolding_all rfl⟩

end Claim5

section Claim6

/-- `SortedList.bisect_left`: the number of keys strictly below `q`, which
for a sorted key list is the left bisection index of `q`. -/
def bisect_left (keys : List ℚ) (q : ℚ) : ℕ :=
  keys.countP (fun k => decide (k < q))

/-- Python list indexing with negative-index wraparound (`keys[i]` for
`i < 0` is `keys[len(keys) + i]`), `none` when out of range. -/
def pyIndex (keys : List ℚ) (i : ℤ) : Option ℚ :=
  if i < 0 then keys[((keys.length : ℤ) + i).toNat]? else keys[i.toNat]?

/-- Lookup in the `inverse` mapping (`inverse[x]`), keyed by quantile. -/
def invLookup (inverse : List (ℚ × ℚ)) (k : ℚ) : Option ℚ :=
  (inverse.find? (fun kv => kv.1 == k)).map Prod.snd

/-- The loop of `_quantile_function` building the `inverse` `SortedDict`:
for each `(value, count)` item write `inverse[(cumulative_sum + beta) /
total] = value`, add `count` to the cumulative sum, and write
`inverse[(cumulative_sum - beta) / total] = value`; writing to an existing
key overwrites it.  Returns the final `(inverse, cumulative_sum)`. -/
def inverseFold (beta total : ℚ) (items : List (ℚ × ℚ)) :
    List (ℚ × ℚ) × ℚ :=
  items.foldl
    (fun st kv =>
      let inv1 := insertPoint ((st.2 + beta) / total) kv.1 st.1
      let csum := st.2 + kv.2
      let inv2 := insertPoint ((csum - beta) / total) kv.1 inv1
      (inv2, csum))
    ([], 0)

/-- The closure `function(q)` returned by `_quantile_function`: `None`
(`ValueError`) outside `[0, 1]`, clamp into `[q_min, q_max]`, then: with
`beta > 0` interpolate linearly between the neighbouring inverse keys; with
`beta = 0` (the `else` branch) a `q` present among the inverse keys
averages the values at its own key and at the previous key, and otherwise
the value at the greatest key below `q` is returned.  `previous_index` is
hoisted out of the branches (it is pure); out-of-range indexing, which
cannot occur on the histograms considered here, gives `none`. -/
def quantileEval (inverse : List (ℚ × ℚ)) (beta : ℚ) (q0 : ℚ) : Option ℚ :=
  match inverse.map Prod.fst with
  | [] => none
  | qmin :: krest =>
    let keys := qmin :: krest
    if q0 < 0 ∨ 1 < q0 then none
    else
      let qmax := keys.getLast?.getD qmin
      let q := if q0 < qmin then qmin else if qmax < q0 then qmax else q0
      let previous_index : ℤ := (bisect_left keys q : ℤ) - 1
      if 0 < beta then
        if q ∈ keys then invLookup inverse q
        else
          match pyIndex keys previous_index,
              pyIndex keys (previous_index + 1) with
          | some x1, some x2 =>
            match invLookup inverse x1, invLookup inverse x2 with
            | some y1, some y2 =>
              some ((y2 - y1) * (q - x1) / (x2 - x1) + y1)
            | _, _ => none
          | _, _ => none
      else
        if q ∈ keys then
          match pyIndex keys previous_index,
              pyIndex keys (previous_index + 1) with
          | some x1, some x2 =>
            match invLookup inverse x1, invLookup inverse x2 with
            | some y1, some y2 => some ((y1 + y2) / 2)
            | _, _ => none
          | _, _ => none
        else
          match pyIndex keys previous_index with
          | some x1 => invLookup inverse x1
          | none => none

/-- `Histogram._quantile_function(alpha, smallest_count=None)` followed by
`function(q)`, for a histogram with numeric keys given as its value-sorted
`(value, count)` items (on numeric keys `_prepare_for_stats` only strips
`None` keys, so `clean` is the histogram itself and `total` its count sum).
A zero total yields the constant-`None` function; otherwise
`beta = alpha * smallest_count` with `smallest_count` the least count. -/
def quantile_function (items : List (ℚ × ℚ)) (alpha : ℚ) (q : ℚ) :
    Option ℚ :=
  let total := (items.map Prod.snd).sum
  if total = 0 then none
  else
    match items.map Prod.snd with
    | [] => none
    | c :: cs =>
      let smallest_count := cs.foldl min c
      let beta := alpha * smallest_count
      let inverse := (inverseFold beta total items).1
      quantileEval inverse beta q

/-- `Histogram.quantiles(q_list, alpha, smallest_count=None)`: the quantile
function mapped over the requested probabilities. -/
def quantiles (items : List (ℚ × ℚ)) (alpha : ℚ) (q_list : List ℚ) :
    List (Option ℚ) :=
  q_list.map (fun q => quantile_function items alpha q)

/-- Closed form of the `inverse` mapping built with `beta = 0`: one entry
per cumulative boundary, starting from cumulative sum `csum` whose entry
carries the next item value (or `w` when no items remain). -/
def invFull (total : ℚ) : ℚ → ℚ → List (ℚ × ℚ) → List (ℚ × ℚ)
  | csum, w, [] => [(csum / total, w)]
  | csum, w, (v, c) :: rest => (csum / total, v) :: invFull total (csum + c) v rest

/-- The value of the `i`-th `inverse` entry: the `i`-th item value, or for
the final boundary the last item value (`w` when there are no items). -/
def vAt (items : List (ℚ × ℚ)) (w : ℚ) (i : ℕ) : ℚ :=
  match items[i]? with
  | some kv => kv.1
  | none => ((items.getLast?).map Prod.fst).getD w

/-- One step of the `beta = 0` inverse-building fold, with the vanished
`± beta` terms removed. -/
def invStep (total : ℚ) (st : List (ℚ × ℚ) × ℚ) (kv : ℚ × ℚ) :
    List (ℚ × ℚ) × ℚ :=
  (insertPoint ((st.2 + kv.2) / total) kv.1
    (insertPoint (st.2 / total) kv.1 st.1), st.2 + kv.2)

/-- Inserting at the key of the last element (all other keys smaller)
overwrites the last element. -/
theorem insertPoint_replace_last {t : T} {w : V} :
    ∀ (L : List (T × V)) (v : V), (∀ p ∈ L, p.1 < t) →
    insertPoint t v (L ++ [(t, w)]) = L ++ [(t, v)] := by
  intro L
  induction L with
  | nil =>
    intro v _
    simp [insertPoint]
  | cons a L ih =>
    intro v hlt
    obtain ⟨k, u⟩ := a
    have ha : k < t := hlt (k, u) (List.mem_cons_self _ _)
    simp only [List.cons_append, insertPoint,
      if_neg (not_lt.mpr (le_of_lt ha)), if_neg (ne_of_gt ha),
      List.cons.injEq, true_and]
    exact ih v (fun p hp => hlt p (List.mem_cons_of_mem _ hp))

theorem inverseFold_zero_eq (total : ℚ) (items : List (ℚ × ℚ)) :
    inverseFold 0 total items = items.foldl (invStep total) ([], 0) := by
  unfold inverseFold invStep
  congr 1
  funext st kv
  simp

/-- Invariant of the `beta = 0` fold: from a state whose last entry sits at
the current cumulative boundary, the remaining items extend the inverse by
their cumulative boundaries, overwriting that last entry's value. -/
theorem foldl_invStep_spec (total : ℚ) (htot : 0 < total) :
    ∀ (rem : List (ℚ × ℚ)) (L : List (ℚ × ℚ)) (csum w : ℚ),
    (∀ p ∈ L, p.1 < csum / total) →
    (∀ kv ∈ rem, 0 < kv.2) →
    rem.foldl (invStep total) (L ++ [(csum / total, w)], csum) =
      (L ++ invFull total csum w rem, csum + (rem.map Prod.snd).sum) := by
  intro rem
  induction rem with
  | nil =>
    intro L csum w _ _
    simp [invFull]
  | cons kv rem ih =>
    obtain ⟨v, c⟩ := kv
    intro L csum w hL hpos
    have hc : 0 < c := hpos (v, c) (List.mem_cons_self _ _)
    have hdiv : csum / total < (csum + c) / total := by
      gcongr
      linarith
    have hL2 : ∀ p ∈ L ++ [(csum / total, v)], p.1 < (csum + c) / total := by
      intro p hp
      rcases List.mem_append.mp hp with h | h
      · exact lt_trans (hL p h) hdiv
      · simp only [List.mem_singleton] at h
        rw [h]
        exact hdiv
    rw [List.foldl_cons]
    have hstep : invStep total (L ++ [(csum / total, w)], csum) (v, c) =
        ((L ++ [(csum / total, v)]) ++ [((csum + c) / total, v)], csum + c) := by
      unfold invStep
      dsimp only
      rw [insertPoint_replace_last L v hL, insertPoint_append hL2 v]
    rw [hstep, ih (L ++ [(csum / total, v)]) (csum + c) v hL2
      (fun kv2 hkv2 => hpos kv2 (List.mem_cons_of_mem _ hkv2))]
    simp [invFull, add_assoc]

/-- The `inverse` built by `_quantile_function` with `beta = 0` is the
closed-form boundary list. -/
theorem inverse_eq_invFull (total : ℚ) (htot : 0 < total) (v1 c1 : ℚ)
    (rest : List (ℚ × ℚ)) (hpos : ∀ kv ∈ (v1, c1) :: rest, 0 < kv.2) :
    (inverseFold 0 total ((v1, c1) :: rest)).1 =
      invFull total 0 v1 ((v1, c1) :: rest) := by
  have hc1 : 0 < c1 := hpos (v1, c1) (List.mem_cons_self _ _)
  have hdiv : (0 : ℚ) / total < (0 + c1) / total := by
    gcongr
    linarith
  rw [inverseFold_zero_eq, List.foldl_cons]
  have hstep : invStep total ([], 0) (v1, c1) =
      ([((0 : ℚ) / total, v1)] ++ [((0 + c1) / total, v1)], 0 + c1) := by
    unfold invStep
    dsimp only
    rw [show insertPoint ((0 : ℚ) / total) v1 [] = [((0 : ℚ) / total, v1)]
        from rfl,
      insertPoint_append (fun p hp => by
        simp only [List.mem_singleton] at hp
        rw [hp]
        exact hdiv) v1]
  rw [hstep, foldl_invStep_spec total htot rest [((0 : ℚ) / total, v1)]
    (0 + c1) v1
    (fun p hp => by
      simp only [List.mem_singleton] at hp
      rw [hp]
      exact hdiv)
    (fun kv2 hkv2 => hpos kv2 (List.mem_cons_of_mem _ hkv2))]
  simp [invFull]

theorem invFull_length (total : ℚ) :
    ∀ (items : List (ℚ × ℚ)) (csum w : ℚ),
    (invFull total csum w items).length = items.length + 1 := by
  intro items
  induction items with
  | nil => intro csum w; rfl
  | cons kv rest ih =>
    obtain ⟨v, c⟩ := kv
    intro csum w
    simp [invFull, ih]

/-- Indexed description of the closed-form inverse: entry `i` sits at the
`i`-th cumulative boundary and carries `vAt items w i`. -/
theorem invFull_getElem (total : ℚ) :
    ∀ (items : List (ℚ × ℚ)) (csum w : ℚ) (i : ℕ), i ≤ items.length →
    (invFull total csum w items)[i]? =
      some ((csum + ((items.take i).map Prod.snd).sum) / total,
        vAt items w i) := by
  intro items
  induction items with
  | nil =>
    intro csum w i hi
    have h0 : i = 0 := Nat.le_zero.mp hi
    subst h0
    simp [invFull, vAt]
  | cons kv rest ih =>
    obtain ⟨v, c⟩ := kv
    intro csum w i hi
    cases i with
    | zero => simp [invFull, vAt]
    | succ j =>
      have hj : j ≤ rest.length := by simpa using hi
      simp only [invFull, List.getElem?_cons_succ]
      rw [ih (csum + c) v j hj]
      have hkey : csum + c + ((rest.take j).map Prod.snd).sum =
          csum + ((((v, c) :: rest).take (j + 1)).map Prod.snd).sum := by
        simp only [List.take_succ_cons, List.map_cons, List.sum_cons]
        ring
      have hval : vAt rest v j = vAt ((v, c) :: rest) w (j + 1) := by
        unfold vAt
        simp only [List.getElem?_cons_succ]
        cases hrj : rest[j]? with
        | some kv2 => rfl
        | none =>
          cases rest with
          | nil => rfl
          | cons b bs =>
            rw [List.getLast?_cons_cons,
              List.getLast?_eq_getLast _ (by simp)]
            simp
      rw [hkey, hval]

theorem take_sum_succ :
    ∀ (items : List (ℚ × ℚ)) (i : ℕ) (a : ℚ × ℚ), items[i]? = some a →
    ((items.take (i + 1)).map Prod.snd).sum =
      ((items.take i).map Prod.snd).sum + a.2 := by
  intro items
  induction items with
  | nil => intro i a ha; simp at ha
  | cons kv rest ih =>
    intro i a ha
    cases i with
    | zero =>
      have hkv : kv = a := by simpa using ha
      subst hkv
      simp
    | succ j =>
      have ha' : rest[j]? = some a := by simpa using ha
      simp only [List.take_succ_cons, List.map_cons, List.sum_cons, ih j a ha']
      ring

theorem take_sum_lt (items : List (ℚ × ℚ))
    (hpos : ∀ kv ∈ items, 0 < kv.2) :
    ∀ j, j ≤ items.length → ∀ i, i < j →
    ((items.take i).map Prod.snd).sum <
      ((items.take j).map Prod.snd).sum := by
  intro j
  induction j with
  | zero => intro _ i hi; exact absurd hi (Nat.not_lt_zero i)
  | succ k ihk =>
    intro hk i hi
    have hklen : k < items.length := by omega
    have ha : items[k]? = some items[k] := List.getElem?_eq_getElem hklen
    have hstep := take_sum_succ items k _ ha
    have hapos : 0 < (items[k]).2 := hpos _ (List.getElem_mem hklen)
    rcases Nat.lt_succ_iff_lt_or_eq.mp hi with hik | hik
    · refine lt_trans (ihk (by omega) i hik) ?_
      rw [hstep]
      linarith
    · rw [hik, hstep]
      linarith

theorem take_sum_le (items : List (ℚ × ℚ))
    (hpos : ∀ kv ∈ items, 0 < kv.2) :
    ∀ j, j ≤ items.length → ∀ i, i ≤ j →
    ((items.take i).map Prod.snd).sum ≤
      ((items.take j).map Prod.snd).sum := by
  intro j hj i hi
  rcases Nat.lt_or_ge i j with h | h
  · exact le_of_lt (take_sum_lt items hpos j hj i h)
  · have : i = j := by omega
    rw [this]

/-- Keys of the closed-form inverse strictly increase. -/
theorem invFull_pairwise (total : ℚ) (htot : 0 < total)
    (items : List (ℚ × ℚ)) (hpos : ∀ kv ∈ items, 0 < kv.2) (csum w : ℚ) :
    List.Pairwise (fun p q2 => p.1 < q2.1) (invFull total csum w items) := by
  rw [List.pairwise_iff_getElem]
  intro i j hi hj hij
  rw [invFull_length] at hi hj
  have hi' : i ≤ items.length := by omega
  have hj' : j ≤ items.length := by omega
  have e1 := Option.some.inj
    ((List.getElem?_eq_getElem (by rw [invFull_length]; omega)).symm.trans
      (invFull_getElem total items csum w i hi'))
  have e2 := Option.some.inj
    ((List.getElem?_eq_getElem (by rw [invFull_length]; omega)).symm.trans
      (invFull_getElem total items csum w j hj'))
  rw [e1, e2]
  dsimp only
  have hsum := take_sum_lt items hpos j hj' i hij
  gcongr

/-- Looking up the key of the `i`-th entry of a key-sorted association
list returns that entry's value. -/
theorem invLookup_getElem :
    ∀ (l : List (ℚ × ℚ)), List.Pairwise (fun p q2 => p.1 < q2.1) l →
    ∀ (i : ℕ) (x : ℚ × ℚ), l[i]? = some x → invLookup l x.1 = some x.2 := by
  intro l
  induction l with
  | nil => intro _ i x hx; simp at hx
  | cons a l ih =>
    intro hp i x hx
    obtain ⟨ha, hl⟩ := List.pairwise_cons.mp hp
    cases i with
    | zero =>
      have hax : a = x := by simpa using hx
      subst hax
      unfold invLookup
      rw [List.find?_cons_of_pos _ (by simp)]
      rfl
    | succ j =>
      have hx' : l[j]? = some x := by simpa using hx
      have hxmem : x ∈ l := List.mem_iff_getElem?.mpr ⟨j, hx'⟩
      unfold invLookup
      rw [List.find?_cons_of_neg _ (by
        simp only [beq_iff_eq]
        exact ne_of_lt (ha x hxmem))]
      exact ih hl j x hx'

/-- Counting the keys below `q` when the list splits into a prefix below
`q` and a suffix at or above `q`. -/
theorem countP_lt_split (l : List ℚ) (q : ℚ) (m : ℕ) (hm : m ≤ l.length)
    (hA : ∀ x ∈ l.take m, x < q) (hB : ∀ x ∈ l.drop m, ¬ x < q) :
    l.countP (fun k => decide (k < q)) = m := by
  have h1 : (l.take m).countP (fun k => decide (k < q)) =
      (l.take m).length :=
    List.countP_eq_length.mpr (fun x hx => by simpa using hA x hx)
  have h2 : (l.drop m).countP (fun k => decide (k < q)) = 0 :=
    List.countP_eq_zero.mpr (fun x hx => by simpa using hB x hx)
  calc l.countP (fun k => decide (k < q))
      = (l.take m ++ l.drop m).countP (fun k => decide (k < q)) := by
        rw [List.take_append_drop]
    _ = m := by
        rw [List.countP_append, h1, h2, List.length_take, add_zero,
          min_eq_left hm]

theorem pyIndex_natCast (keys : List ℚ) (j : ℕ) :
    pyIndex keys (j : ℤ) = keys[j]? := by
  unfold pyIndex
  rw [if_neg (by omega), Int.toNat_natCast]

theorem lt_length_of_getElem?_some {α : Type} {l : List α} {i : ℕ} {x : α}
    (h : l[i]? = some x) : i < l.length := by
  by_contra hcon
  rw [List.getElem?_eq_none (by omega)] at h
  cases h

/-- A histogram with at least one item, all counts positive, has positive
total. -/
theorem counts_sum_pos (items : List (ℚ × ℚ))
    (hpos : ∀ kv ∈ items, 0 < kv.2) (hne : items ≠ []) :
    0 < (items.map Prod.snd).sum := by
  obtain ⟨a0, rest, rfl⟩ := List.exists_cons_of_ne_nil hne
  obtain ⟨v1, c1⟩ := a0
  simp only [List.map_cons, List.sum_cons]
  have h1 : 0 < c1 := hpos (v1, c1) (List.mem_cons_self _ _)
  have h2 : 0 ≤ (rest.map Prod.snd).sum := by
    apply List.sum_nonneg
    intro x hx
    obtain ⟨kv, hkv, rfl⟩ := List.mem_map.mp hx
    exact le_of_lt (hpos kv (List.mem_cons_of_mem _ hkv))
  linarith

/-- The `i`-th cumulative boundary of a histogram: the key of the `i`-th
`inverse` entry built with `beta = 0`. -/
def qkey (items : List (ℚ × ℚ)) (i : ℕ) : ℚ :=
  (0 + ((items.take i).map Prod.snd).sum) / (items.map Prod.snd).sum

theorem qkey_eq (items : List (ℚ × ℚ)) (i : ℕ) :
    qkey items i =
      ((items.take i).map Prod.snd).sum / (items.map Prod.snd).sum := by
  unfold qkey
  rw [zero_add]

theorem qkey_zero (items : List (ℚ × ℚ)) : qkey items 0 = 0 := by
  simp [qkey]

theorem qkey_length (items : List (ℚ × ℚ))
    (htot : 0 < (items.map Prod.snd).sum) :
    qkey items items.length = 1 := by
  unfold qkey
  rw [List.take_length, zero_add, div_self htot.ne']

theorem qkey_lt (items : List (ℚ × ℚ)) (hpos : ∀ kv ∈ items, 0 < kv.2)
    (htot : 0 < (items.map Prod.snd).sum) :
    ∀ i j, i < j → j ≤ items.length → qkey items i < qkey items j := by
  intro i j hij hj
  have hsum := take_sum_lt items hpos j hj i hij
  unfold qkey
  gcongr

theorem qkey_le (items : List (ℚ × ℚ)) (hpos : ∀ kv ∈ items, 0 < kv.2)
    (htot : 0 < (items.map Prod.snd).sum) :
    ∀ i j, i ≤ j → j ≤ items.length → qkey items i ≤ qkey items j := by
  intro i j hij hj
  rcases Nat.lt_or_ge i j with h | h
  · exact le_of_lt (qkey_lt items hpos htot i j h hj)
  · have : i = j := by omega
    rw [this]

/-- Reduction of the quantile closure at `beta = 0` for an in-range,
unclamped probability: only the key-membership branch remains. -/
theorem quantileEval_zero_eval (inverse : List (ℚ × ℚ)) (k0 : ℚ)
    (K : List ℚ) (hkeys : inverse.map Prod.fst = k0 :: K)
    (q qmax : ℚ) (hq0 : 0 ≤ q) (hq1 : q ≤ 1)
    (hqmin : ¬ q < k0)
    (hqmax : (k0 :: K).getLast? = some qmax) (hqmaxge : ¬ qmax < q) :
    quantileEval inverse 0 q =
      (if q ∈ k0 :: K then
        match pyIndex (k0 :: K) ((bisect_left (k0 :: K) q : ℤ) - 1),
            pyIndex (k0 :: K) ((bisect_left (k0 :: K) q : ℤ) - 1 + 1) with
        | some x1, some x2 =>
          match invLookup inverse x1, invLookup inverse x2 with
          | some y1, some y2 => some ((y1 + y2) / 2)
          | _, _ => none
        | _, _ => none
      else
        match pyIndex (k0 :: K) ((bisect_left (k0 :: K) q : ℤ) - 1) with
        | some x1 => invLookup inverse x1
        | none => none) := by
  have hnotor : ¬ (q < 0 ∨ 1 < q) := by
    push_neg
    exact ⟨hq0, hq1⟩
  simp only [quantileEval, hkeys]
  rw [if_neg hnotor, hqmax]
  simp only [Option.getD_some]
  rw [if_neg hqmin, if_neg hqmaxge, if_neg (lt_irrefl (0 : ℚ))]

/-- Full evaluation of the `beta = 0` quantile closure on the closed-form
inverse: with the bisection index `m` located by the cumulative boundaries,
a `q` equal to boundary `m` averages the values of entries `m - 1` and `m`,
and a `q` strictly inside a step returns the value of entry `m - 1`. -/
theorem quantileEval_invFull_cases (items : List (ℚ × ℚ)) (w : ℚ)
    (hpos : ∀ kv ∈ items, 0 < kv.2) (hne : items ≠ [])
    (q : ℚ) (hq0 : 0 < q) (hq1 : q ≤ 1)
    (m : ℕ) (hm1 : 1 ≤ m) (hmn : m ≤ items.length)
    (hA : ∀ i, i < m → qkey items i < q)
    (hB : ∀ i, m ≤ i → i ≤ items.length → ¬ qkey items i < q) :
    (q = qkey items m →
      quantileEval (invFull ((items.map Prod.snd).sum) 0 w items) 0 q =
        some ((vAt items w (m - 1) + vAt items w m) / 2)) ∧
    ((∀ i, i ≤ items.length → qkey items i ≠ q) →
      quantileEval (invFull ((items.map Prod.snd).sum) 0 w items) 0 q =
        some (vAt items w (m - 1))) := by
  have htot : 0 < (items.map Prod.snd).sum := counts_sum_pos items hpos hne
  have hgetk : ∀ i, i ≤ items.length →
      ((invFull ((items.map Prod.snd).sum) 0 w items).map Prod.fst)[i]? =
        some (qkey items i) := by
    intro i hi
    rw [List.getElem?_map, invFull_getElem _ items 0 w i hi]
    rfl
  have hklen : ((invFull ((items.map Prod.snd).sum) 0 w items).map
      Prod.fst).length = items.length + 1 := by
    rw [List.length_map, invFull_length]
  obtain ⟨k0, K, hkeys⟩ := List.exists_cons_of_ne_nil
    (List.length_pos.mp (by rw [hklen]; omega))
  have hgetk2 : ∀ i, i ≤ items.length →
      (k0 :: K)[i]? = some (qkey items i) := by
    intro i hi
    rw [← hkeys]
    exact hgetk i hi
  have hKlen : (k0 :: K).length = items.length + 1 := by
    rw [← hkeys, hklen]
  have hk0 : k0 = qkey items 0 := by
    have h0 := hgetk2 0 (Nat.zero_le _)
    simpa using h0
  have hqmin : ¬ q < k0 := by
    rw [hk0, qkey_zero]
    exact not_lt.mpr (le_of_lt hq0)
  have hqmaxeq : (k0 :: K).getLast? = some (qkey items items.length) := by
    rw [List.getLast?_eq_getElem?, hKlen, Nat.add_sub_cancel]
    exact hgetk2 items.length le_rfl
  have hqmaxge : ¬ qkey items items.length < q := by
    rw [qkey_length items htot]
    exact not_lt.mpr hq1
  have hsplit : bisect_left (k0 :: K) q = m := by
    unfold bisect_left
    apply countP_lt_split _ _ m (by rw [hKlen]; omega)
    · intro x hx
      obtain ⟨i, hxi⟩ := List.mem_iff_getElem?.mp hx
      rw [List.getElem?_take] at hxi
      by_cases him : i < m
      · rw [if_pos him, hgetk2 i (by omega)] at hxi
        have hxe := Option.some.inj hxi
        subst hxe
        exact hA i him
      · rw [if_neg him] at hxi
        cases hxi
    · intro x hx
      obtain ⟨i, hxi⟩ := List.mem_iff_getElem?.mp hx
      rw [List.getElem?_drop] at hxi
      have hlen2 : m + i < (k0 :: K).length := lt_length_of_getElem?_some hxi
      have hin : m + i ≤ items.length := by rw [hKlen] at hlen2; omega
      rw [hgetk2 (m + i) hin] at hxi
      have hxe := Option.some.inj hxi
      subst hxe
      exact hB (m + i) (Nat.le_add_right m i) hin
  have hpw := invFull_pairwise ((items.map Prod.snd).sum) htot items hpos 0 w
  have hl1 : invLookup (invFull ((items.map Prod.snd).sum) 0 w items)
      (qkey items (m - 1)) = some (vAt items w (m - 1)) :=
    invLookup_getElem _ hpw (m - 1) _
      (invFull_getElem _ items 0 w (m - 1) (by omega))
  have hl2 : invLookup (invFull ((items.map Prod.snd).sum) 0 w items)
      (qkey items m) = some (vAt items w m) :=
    invLookup_getElem _ hpw m _ (invFull_getElem _ items 0 w m hmn)
  have hi2 : ((m : ℕ) : ℤ) - 1 + 1 = ((m : ℕ) : ℤ) := by ring
  have hi1 : ((m : ℕ) : ℤ) - 1 = ((m - 1 : ℕ) : ℤ) := by omega
  constructor
  · intro hqm
    have hmem : q ∈ k0 :: K := List.mem_iff_getElem?.mpr
      ⟨m, by rw [hgetk2 m hmn, hqm]⟩
    rw [quantileEval_zero_eval _ k0 K hkeys q (qkey items items.length)
      (le_of_lt hq0) hq1 hqmin hqmaxeq hqmaxge]
    rw [if_pos hmem, hsplit, hi2, hi1, pyIndex_natCast, pyIndex_natCast,
      hgetk2 (m - 1) (by omega), hgetk2 m hmn]
    simp only [hl1, hl2]
  · intro habs
    have hnmem : ¬ q ∈ k0 :: K := by
      intro hqmem
      obtain ⟨i, hi⟩ := List.mem_iff_getElem?.mp hqmem
      have hlen2 : i < (k0 :: K).length := lt_length_of_getElem?_some hi
      have hin : i ≤ items.length := by rw [hKlen] at hlen2; omega
      rw [hgetk2 i hin] at hi
      exact habs i hin (Option.some.inj hi)
    rw [quantileEval_zero_eval _ k0 K hkeys q (qkey items items.length)
      (le_of_lt hq0) hq1 hqmin hqmaxeq hqmaxge]
    rw [if_neg hnmem, hsplit, hi1, pyIndex_natCast, hgetk2 (m - 1) (by omega)]
    simp only [hl1]

/-- C6: for a non-empty numeric-keyed histogram (value-sorted items with
positive counts) and `alpha = 0`, `quantile`/`quantiles` compute the
empirical-CDF inverse with the midpoint convention: a probability exactly
on a jump of the cumulative distribution returns the average of the two
adjacent values (`q = 1` returning the maximum), a probability strictly
inside a cumulative step returns that step's value, and `quantiles` maps
the quantile function over the requested probabilities. -/
theorem claim_quantiles_alpha_zero (items : List (ℚ × ℚ))
    (hsorted : List.Pairwise (fun a b => a.1 < b.1) items)
    (hpos : ∀ kv ∈ items, 0 < kv.2) (hne : items ≠ [])
    (q : ℚ) (hq0 : 0 < q) (hq1 : q ≤ 1) :
    (∀ (j : ℕ) (a b : ℚ × ℚ), items[j]? = some a → items[j + 1]? = some b →
      q = ((items.take (j + 1)).map Prod.snd).sum / (items.map Prod.snd).sum →
      quantile_function items 0 q = some ((a.1 + b.1) / 2)) ∧
    (∀ a : ℚ × ℚ, items.getLast? = some a → q = 1 →
      quantile_function items 0 q = some a.1) ∧
    (∀ (j : ℕ) (a : ℚ × ℚ), items[j]? = some a →
      ((items.take j).map Prod.snd).sum / (items.map Prod.snd).sum < q →
      q < ((items.take (j + 1)).map Prod.snd).sum / (items.map Prod.snd).sum →
      quantile_function items 0 q = some a.1) ∧
    (∀ qs : List ℚ, quantiles items 0 qs =
      qs.map (quantile_function items 0)) := by
  obtain ⟨a0, rest, rfl⟩ := List.exists_cons_of_ne_nil hne
  obtain ⟨v1, c1⟩ := a0
  have htot : 0 < (((v1, c1) :: rest).map Prod.snd).sum :=
    counts_sum_pos _ hpos hne
  have hqf : ∀ q' : ℚ, quantile_function ((v1, c1) :: rest) 0 q' =
      quantileEval
        (invFull ((((v1, c1) :: rest).map Prod.snd).sum) 0 v1
          ((v1, c1) :: rest)) 0 q' := by
    intro q'
    have htot' : 0 < (c1 :: rest.map Prod.snd).sum := by simpa using htot
    simp only [quantile_function, List.map_cons]
    rw [if_neg htot'.ne', zero_mul, inverse_eq_invFull _ htot' v1 c1 rest hpos]
  refine ⟨?_, ?_, ?_, fun qs => rfl⟩
  · intro j a b hja hjb hq
    have hjb' : j + 1 < ((v1, c1) :: rest).length :=
      lt_length_of_getElem?_some hjb
    have hq' : q = qkey ((v1, c1) :: rest) (j + 1) := by
      rw [qkey_eq]
      exact hq
    have hcase := quantileEval_invFull_cases ((v1, c1) :: rest) v1 hpos hne
      q hq0 hq1 (j + 1) (by omega) (by omega)
      (fun i hi => by
        rw [hq']
        exact qkey_lt _ hpos htot i (j + 1) hi (by omega))
      (fun i hi1 hi2 => by
        rw [hq']
        exact not_lt.mpr (qkey_le _ hpos htot (j + 1) i hi1 hi2))
    have hres := hcase.1 hq'
    rw [hqf q, hres]
    have hv1 : vAt ((v1, c1) :: rest) v1 j = a.1 := by
      unfold vAt
      rw [hja]
    have hv2 : vAt ((v1, c1) :: rest) v1 (j + 1) = b.1 := by
      unfold vAt
      rw [hjb]
    rw [show j + 1 - 1 = j from rfl, hv1, hv2]
  · intro a hlast hqone
    have hn1 : 1 ≤ ((v1, c1) :: rest).length := by simp
    have hlast' : ((v1, c1) :: rest)[((v1, c1) :: rest).length - 1]? =
        some a := by
      rw [← List.getLast?_eq_getElem?]
      exact hlast
    have hq' : q = qkey ((v1, c1) :: rest) (((v1, c1) :: rest).length) := by
      rw [hqone, qkey_length _ htot]
    have hcase := quantileEval_invFull_cases ((v1, c1) :: rest) v1 hpos hne
      q hq0 hq1 ((v1, c1) :: rest).length hn1 le_rfl
      (fun i hi => by
        rw [hq']
        exact qkey_lt _ hpos htot i _ hi le_rfl)
      (fun i hi1 hi2 => by
        have hieq : i = ((v1, c1) :: rest).length := by omega
        rw [hq', hieq]
        exact lt_irrefl _)
    have hres := hcase.1 hq'
    rw [hqf q, hres]
    have hv1 : vAt ((v1, c1) :: rest) v1 (((v1, c1) :: rest).length - 1) =
        a.1 := by
      unfold vAt
      rw [hlast']
    have hv2 : vAt ((v1, c1) :: rest) v1 (((v1, c1) :: rest).length) =
        a.1 := by
      unfold vAt
      rw [List.getElem?_eq_none le_rfl, hlast]
      rfl
    rw [hv1, hv2, show (a.1 + a.1) / 2 = a.1 from by ring]
  · intro j a hja hlow hhigh
    have hj' : j < ((v1, c1) :: rest).length := lt_length_of_getElem?_some hja
    have hlow' : qkey ((v1, c1) :: rest) j < q := by
      rw [qkey_eq]
      exact hlow
    have hhigh' : q < qkey ((v1, c1) :: rest) (j + 1) := by
      rw [qkey_eq]
      exact hhigh
    have hcase := quantileEval_invFull_cases ((v1, c1) :: rest) v1 hpos hne
      q hq0 hq1 (j + 1) (by omega) (by omega)
      (fun i hi => lt_of_le_of_lt
        (qkey_le _ hpos htot i j (by omega) (by omega)) hlow')
      (fun i hi1 hi2 => not_lt.mpr (le_trans (le_of_lt hhigh')
        (qkey_le _ hpos htot (j + 1) i hi1 hi2)))
    have habs : ∀ i, i ≤ ((v1, c1) :: rest).length →
        qkey ((v1, c1) :: rest) i ≠ q := by
      intro i hi
      rcases Nat.lt_or_ge i (j + 1) with h | h
      · exact ne_of_lt (lt_of_le_of_lt
          (qkey_le _ hpos htot i j (by omega) (by omega)) hlow')
      · exact ne_of_gt (lt_of_lt_of_le hhigh'
          (qkey_le _ hpos htot (j + 1) i h hi))
    have hres := hcase.2 habs
    rw [hqf q, hres]
    have hv1 : vAt ((v1, c1) :: rest) v1 j = a.1 := by
      unfold vAt
      rw [hja]
    rw [show j + 1 - 1 = j from rfl, hv1]

/-- The histogram of the data `[1, 1, 1, 2, 3, 5, 6, 7]` of C6:
value-sorted `(value, count)` items. -/
def exC6 : List (ℚ × ℚ) := [(1, 3), (2, 1), (3, 1), (5, 1), (6, 1), (7, 1)]

/-- Witness for C6: the general theorem applied to the `[1,1,1,2,3,5,6,7]`
histogram at the median (`mkRat 1 2` is `q = 0.5`, which falls on the jump
after the value `2`), plus the concrete quantile list of the claim:
quantiles at `[0.001, 0.01, 0.05, 0.25, 0.5, 0.75, 0.95, 0.99, 0.999]` are
`[1, 1, 1, 1, 2.5, 5.5, 7, 7, 7]`. -/
theorem claim_quantiles_alpha_zero_witness :
    ((∀ (j : ℕ) (a b : ℚ × ℚ), exC6[j]? = some a → exC6[j + 1]? = some b →
      mkRat 1 2 =
        ((exC6.take (j + 1)).map Prod.snd).sum / (exC6.map Prod.snd).sum →
      quantile_function exC6 0 (mkRat 1 2) = some ((a.1 + b.1) / 2)) ∧
    (∀ a : ℚ × ℚ, exC6.getLast? = some a → mkRat 1 2 = 1 →
      quantile_function exC6 0 (mkRat 1 2) = some a.1) ∧
    (∀ (j : ℕ) (a : ℚ × ℚ), exC6[j]? = some a →
      ((exC6.take j).map Prod.snd).sum / (exC6.map Prod.snd).sum <
        mkRat 1 2 →
      mkRat 1 2 <
        ((exC6.take (j + 1)).map Prod.snd).sum / (exC6.map Prod.snd).sum →
      quantile_function exC6 0 (mkRat 1 2) = some a.1) ∧
    (∀ qs : List ℚ, quantiles exC6 0 qs =
      qs.map (quantile_function exC6 0))) ∧
    quantiles exC6 0 [mkRat 1 1000, mkRat 1 100, mkRat 1 20, mkRat 1 4,
        mkRat 1 2, mkRat 3 4, mkRat 19 20, mkRat 99 100, mkRat 999 1000] =
      [some 1, some 1, some 1, some 1, some (mkRat 5 2), some (mkRat 11 2),
        some 7, some 7, some 7] :=
  ⟨claim_quantiles_alpha_zero exC6 (by decide) (by decide) (by decide)
      (mkRat 1 2) (by decide) (by decide),
    by with_unfolding_all rfl⟩

end Claim6

section Claim7

/-- After dropping the leading run of elements equal to `t` from a sorted
list bounded below by `t`, every remaining element is strictly greater. -/
theorem dropWhile_gt {t : T} : ∀ l : List T, l.Pairwise (· ≤ ·) →
    (∀ x ∈ l, t ≤ x) → ∀ x ∈ l.dropWhile (fun s => s == t), t < x := by
  intro l
  induction l with
  | nil => intro _ _ x hx; simp at hx
  | cons y l ih =>
    intro hpw hlb x hx
    by_cases hy : y = t
    · rw [List.dropWhile_cons_of_pos (by simp [hy])] at hx
      exact ih (List.pairwise_cons.mp hpw).2
        (fun z hz => hlb z (List.mem_cons_of_mem _ hz)) x hx
    · rw [List.dropWhile_cons_of_neg (by simp [hy])] at hx
      have hty : t < y :=
        lt_of_le_of_ne (hlb y (List.mem_cons_self _ _)) (Ne.symm hy)
      rcases List.mem_cons.mp hx with hx | hx
      · rw [hx]; exact hty
      · exact lt_of_lt_of_le hty ((List.pairwise_cons.mp hpw).1 x hx)

/-- The specification of `cumGroups` on a sorted event list: keys strictly
increase, keys are exactly the event times, each group's running total is
the offset plus the count of events at or before its time, and the running
totals strictly increase. -/
theorem cumGroups_spec (es : List T) (n : ℕ) : es.Pairwise (· ≤ ·) →
    List.Pairwise (fun a b => a.1 < b.1) (cumGroups es n) ∧
    (∀ t : T, (∃ c, (t, c) ∈ cumGroups es n) ↔ t ∈ es) ∧
    (∀ pr ∈ cumGroups es n,
      pr.2 = n + es.countP (fun s => decide (s ≤ pr.1))) ∧
    List.Pairwise (fun a b => a.2 < b.2) (cumGroups es n) := by
  induction es, n using cumGroups.induct with
  | case1 n =>
    intro _
    simp [cumGroups]
  | case2 t rest n m ih =>
    intro hpw
    have hgrp_eq : ∀ x ∈ rest.takeWhile (fun s => s == t), x = t := by
      intro x hx
      have := List.mem_takeWhile_imp hx
      simpa using this
    have hrest_le : ∀ x ∈ rest, t ≤ x := (List.pairwise_cons.mp hpw).1
    have hrest_pw : rest.Pairwise (· ≤ ·) := (List.pairwise_cons.mp hpw).2
    have hr2_gt : ∀ x ∈ rest.dropWhile (fun s => s == t), t < x :=
      dropWhile_gt rest hrest_pw hrest_le
    have hr2_pw : (rest.dropWhile (fun s => s == t)).Pairwise (· ≤ ·) :=
      hrest_pw.sublist (List.dropWhile_sublist _)
    obtain ⟨ihK, ihM, ihC, ihV⟩ := ih hr2_pw
    have hm0 : m = n + 1 + (rest.takeWhile (fun s => s == t)).length := rfl
    have hunfold : cumGroups (t :: rest) n =
        (t, m) :: cumGroups (rest.dropWhile (fun s => s == t)) m := by
      simp only [cumGroups]
    set grp := rest.takeWhile (fun s => s == t) with hgrp
    set rest2 := rest.dropWhile (fun s => s == t) with hrest2
    have hrest_split : rest = grp ++ rest2 :=
      (List.takeWhile_append_dropWhile (fun s => s == t) rest).symm
    have hcount_t : (t :: rest).countP (fun s => decide (s ≤ t)) =
        1 + grp.length := by
      rw [List.countP_cons, hrest_split, List.countP_append]
      have h1 : grp.countP (fun s => decide (s ≤ t)) = grp.length := by
        rw [List.countP_eq_length]
        intro a ha
        simp [hgrp_eq a ha]
      have h2 : rest2.countP (fun s => decide (s ≤ t)) = 0 := by
        rw [List.countP_eq_zero]
        intro a ha
        simpa using not_le.mpr (hr2_gt a ha)
      rw [h1, h2]
      simp
      omega
    have hcount_rec : ∀ t' : T, t < t' →
        (t :: rest).countP (fun s => decide (s ≤ t')) =
          1 + grp.length + rest2.countP (fun s => decide (s ≤ t')) := by
      intro t' ht'
      rw [List.countP_cons, hrest_split, List.countP_append]
      have h1 : grp.countP (fun s => decide (s ≤ t')) = grp.length := by
        rw [List.countP_eq_length]
        intro a ha
        simp [hgrp_eq a ha, le_of_lt ht']
      rw [h1]
      simp [le_of_lt ht']
      omega
    refine ⟨?_, ?_, ?_, ?_⟩
    · rw [hunfold]
      refine List.pairwise_cons.mpr ⟨?_, ihK⟩
      intro pr hpr
      have hkey : pr.1 ∈ rest2 := (ihM pr.1).mp ⟨pr.2, hpr⟩
      exact hr2_gt pr.1 hkey
    · intro t'
      rw [hunfold]
      constructor
      · rintro ⟨c, hc⟩
        rcases List.mem_cons.mp hc with hc | hc
        · injection hc with h1 h2
          rw [h1]
          exact List.mem_cons_self _ _
        · have hmem : t' ∈ rest2 := (ihM t').mp ⟨c, hc⟩
          refine List.mem_cons_of_mem _ ?_
          rw [hrest_split]
          exact List.mem_append_right grp hmem
      · intro ht'
        rcases List.mem_cons.mp ht' with h | h
        · exact ⟨m, by rw [h]; exact List.mem_cons_self _ _⟩
        · rw [hrest_split] at h
          rcases List.mem_append.mp h with h | h
          · exact ⟨m, by rw [hgrp_eq t' h]; exact List.mem_cons_self _ _⟩
          · obtain ⟨c, hc⟩ := (ihM t').mpr h
            exact ⟨c, List.mem_cons_of_mem _ hc⟩
    · intro pr hpr
      rw [hunfold] at hpr
      rcases List.mem_cons.mp hpr with h | h
      · rw [h]
        show m = n + (t :: rest).countP (fun s => decide (s ≤ t))
        rw [hcount_t]
        omega
      · have hkey : pr.1 ∈ rest2 := (ihM pr.1).mp ⟨pr.2, h⟩
        have ht' : t < pr.1 := hr2_gt _ hkey
        rw [hcount_rec pr.1 ht', ihC pr h]
        omega
    · rw [hunfold]
      refine List.pairwise_cons.mpr ⟨?_, ihV⟩
      intro pr hpr
      have hkey : pr.1 ∈ rest2 := (ihM pr.1).mp ⟨pr.2, hpr⟩
      have hpos : 0 < rest2.countP (fun s => decide (s ≤ pr.1)) :=
        List.countP_pos_iff.mpr ⟨pr.1, hkey, by simp⟩
      have hc := ihC pr hpr
      show m < pr.2
      omega

/-- `cumulative_sum` materializes exactly the `cumGroups` pairs. -/
theorem cumulative_sum_eq (es : List T) (hpw : es.Pairwise (· ≤ ·)) :
    cumulative_sum es = ⟨cumGroups es 0, 0⟩ := by
  obtain ⟨hK, _, _, _⟩ := cumGroups_spec es 0 hpw
  unfold cumulative_sum
  rw [foldl_set_points Prod.fst Prod.snd (cumGroups es 0) ⟨[], 0⟩
    (by intro p hp; cases hp) hK]
  simp

/-- C7: on a sorted event list, `cumulative_sum` returns a series with
default `0`, stored keys exactly the distinct event times, value at each key
the number of events at or before it, strictly increasing stored values,
and a step function that is the event count `≤ q` at every time, hence
monotonically non-decreasing. -/
theorem claim_cumulative_sum (es : List T) (hpw : es.Pairwise (· ≤ ·)) :
    (cumulative_sum es).default = 0 ∧
    SortedPoints (cumulative_sum es).points ∧
    (∀ t, (∃ c, (t, c) ∈ (cumulative_sum es).points) ↔ t ∈ es) ∧
    (∀ pr ∈ (cumulative_sum es).points,
      pr.2 = es.countP (fun s => decide (s ≤ pr.1))) ∧
    List.Pairwise (fun a b => a.2 < b.2) (cumulative_sum es).points ∧
    (∀ q, (cumulative_sum es).get q = es.countP (fun s => decide (s ≤ q))) ∧
    (∀ q q', q ≤ q' →
      (cumulative_sum es).get q ≤ (cumulative_sum es).get q') := by
  obtain ⟨hK, hM, hC, hV⟩ := cumGroups_spec es 0 hpw
  rw [cumulative_sum_eq es hpw]
  have hget : ∀ q, TimeSeries.get ⟨cumGroups es 0, 0⟩ q =
      es.countP (fun s => decide (s ≤ q)) := by
    intro q
    by_cases hex : ∃ pr ∈ cumGroups es 0, pr.1 ≤ q
    · obtain ⟨pr, hprMem, hprLe, hprMax, hprGet⟩ :=
        get_previous_max_of_exists (S := ⟨cumGroups es 0, 0⟩) hK hex
      have hg : TimeSeries.get ⟨cumGroups es 0, 0⟩ q = pr.2 := hprGet
      have hcong : es.countP (fun s => decide (s ≤ q)) =
          es.countP (fun s => decide (s ≤ pr.1)) := by
        apply List.countP_congr
        intro s hsmem
        by_cases hs : s ≤ pr.1
        · simp [hs, le_trans hs hprLe]
        · have h1 : ¬ s ≤ q := by
            intro hq
            obtain ⟨c, hc⟩ := (hM s).mpr hsmem
            exact hs (hprMax (s, c) hc hq)
          simp [hs, h1]
      rw [hg, hC pr hprMem, hcong]
      omega
    · push_neg at hex
      have h0 : es.countP (fun s => decide (s ≤ q)) = 0 := by
        rw [List.countP_eq_zero]
        intro s hsmem
        obtain ⟨c, hc⟩ := (hM s).mpr hsmem
        simpa using not_le.mpr (hex (s, c) hc)
      rw [h0]
      exact get_eq_default hK (fun p hp => not_le.mpr (hex p hp))
  refine ⟨rfl, hK, hM, ?_, hV, hget, ?_⟩
  · intro pr hpr
    simpa using hC pr hpr
  · intro q q' hqq
    rw [hget q, hget q']
    apply List.countP_mono_left
    intro s hsmem hsq
    simp only [decide_eq_true_eq] at hsq ⊢
    exact le_trans hsq hqq

/-- The sorted event list of the `cumulative_sum` docstring example,
`EventSeries([1, 1, 4, 5, 9, 6, 3, 9, 15])` after insertion sorting. -/
def exC7 : List ℚ := [1, 1, 3, 4, 5, 6, 9, 9, 15]

/-- Witness for C7 at the docstring example event list. -/
theorem claim_cumulative_sum_witness :
    (cumulative_sum exC7).default = 0 ∧
    SortedPoints (cumulative_sum exC7).points ∧
    (∀ t, (∃ c, (t, c) ∈ (cumulative_sum exC7).points) ↔ t ∈ exC7) ∧
    (∀ pr ∈ (cumulative_sum exC7).points,
      pr.2 = exC7.countP (fun s => decide (s ≤ pr.1))) ∧
    List.Pairwise (fun a b => a.2 < b.2) (cumulative_sum exC7).points ∧
    (∀ q, (cumulative_sum exC7).get q =
      exC7.countP (fun s => decide (s ≤ q))) ∧
    (∀ q q', q ≤ q' →
      (cumulative_sum exC7).get q ≤ (cumulative_sum exC7).get q') :=
  claim_cumulative_sum exC7 (by decide)

end Claim7

section Merge

/-- An entry of the merge priority queue, as in `_iter_merge`:
`(t, index, value, iterator)` where the iterator is the rest of that
series' points. -/
abbrev MergeEntry (T V : Type) := T × ℕ × V × List (T × V)

/-- The strict priority order of queue entries: by time, then by series
index (tuple comparison in the Python `PriorityQueue`/`heapq`; the `(time,
index)` pairs of live entries are distinct, so the comparison never reaches
the later components). -/
def entLt (e f : MergeEntry T V) : Prop :=
  e.1 < f.1 ∨ (e.1 = f.1 ∧ e.2.1 < f.2.1)

/-- `queue.put`: insert an entry in priority order. -/
def pqInsert (e : MergeEntry T V) : List (MergeEntry T V) → List (MergeEntry T V)
  | [] => [e]
  | f :: q =>
    if e.1 < f.1 ∨ (e.1 = f.1 ∧ e.2.1 < f.2.1) then e :: f :: q
    else f :: pqInsert e q

/-- Advance one series: push the next measurement from its iterator onto the
queue, or leave the queue unchanged when the iterator is exhausted
(the `try: next(iterator) except StopIteration: pass` block). -/
def pushNext (index : ℕ) (iterator : List (T × V))
    (q : List (MergeEntry T V)) : List (MergeEntry T V) :=
  match iterator with
  | [] => q
  | (t2, v2) :: it2 => pqInsert (t2, index, v2, it2) q

/-- Total number of measurements still owned by the queue (each entry holds
its current item plus its iterator). -/
def qMeasure (q : List (MergeEntry T V)) : ℕ :=
  (q.map (fun e => 1 + e.2.2.2.length)).sum

theorem qMeasure_cons (e : MergeEntry T V) (q : List (MergeEntry T V)) :
    qMeasure (e :: q) = 1 + e.2.2.2.length + qMeasure q := by
  simp [qMeasure]

theorem qMeasure_pqInsert (e : MergeEntry T V) :
    ∀ q : List (MergeEntry T V),
    qMeasure (pqInsert e q) = 1 + e.2.2.2.length + qMeasure q := by
  intro q
  induction q with
  | nil => simp [pqInsert, qMeasure]
  | cons f q ih =>
    by_cases h : e.1 < f.1 ∨ (e.1 = f.1 ∧ e.2.1 < f.2.1)
    · rw [pqInsert, if_pos h, qMeasure_cons]
    · rw [pqInsert, if_neg h, qMeasure_cons, ih, qMeasure_cons]
      omega

theorem qMeasure_pushNext (index : ℕ) (iterator : List (T × V))
    (q : List (MergeEntry T V)) :
    qMeasure (pushNext index iterator q) = iterator.length + qMeasure q := by
  match iterator with
  | [] => simp [pushNext]
  | (t2, v2) :: it2 =>
    rw [pushNext, qMeasure_pqInsert]
    simp
    omega

/-- The loop of `_iter_merge`: pop the least entry, update a copy of the
state vector at that entry's index, yield `(t, state)`, and push the
series' next measurement. -/
def mergeLoop (state : List V) (queue : List (MergeEntry T V)) :
    List (T × List V) :=
  match queue with
  | [] => []
  | (t, index, value, iterator) :: rest_q =>
    (t, state.set index value) ::
      mergeLoop (state.set index value) (pushNext index iterator rest_q)
termination_by qMeasure queue
decreasing_by
  rw [qMeasure_pushNext, qMeasure_cons]
  show iterator.length + qMeasure rest_q < 1 + iterator.length + qMeasure rest_q
  omega

/-- The same loop yielding the raw `(t, index, value)` transitions instead
of states; this is also the body of the benchmark's
`heapq_iter_merge_transitions` (whose additionally reported
`previous_value` is ignored by its consumer). -/
def transitionsLoop (queue : List (MergeEntry T V)) : List (T × ℕ × V) :=
  match queue with
  | [] => []
  | (t, index, value, iterator) :: rest_q =>
    (t, index, value) :: transitionsLoop (pushNext index iterator rest_q)
termination_by qMeasure queue
decreasing_by
  rw [qMeasure_pushNext, qMeasure_cons]
  show iterator.length + qMeasure rest_q < 1 + iterator.length + qMeasure rest_q
  omega

/-- Replay a transition list against a state vector, yielding the state
after each update. -/
def scanStates (state : List V) : List (T × ℕ × V) → List (T × List V)
  | [] => []
  | (t, i, v) :: rest =>
    (t, state.set i v) :: scanStates (state.set i v) rest

/-- One step of the initial-queue loop: push a series' first measurement
(with the rest of its iterator) unless the series is empty
(`StopIteration`). -/
def queueStep (q : List (MergeEntry T V)) (iv : ℕ × TimeSeries T V) :
    List (MergeEntry T V) :=
  match iv.2.points with
  | [] => q
  | (t, v) :: rest => pqInsert (t, iv.1, v, rest) q

/-- The initial queue: for each series (in `enumerate` order), push its
first measurement together with the rest of its iterator. -/
def initialQueue (tss : List (TimeSeries T V)) : List (MergeEntry T V) :=
  (tss.enum).foldl queueStep []

/-- `TimeSeries._iter_merge`: state starts as the list of defaults. -/
def iterMergeRaw (tss : List (TimeSeries T V)) : List (T × List V) :=
  mergeLoop (tss.map (fun ts => ts.default)) (initialQueue tss)

/-- The deduplication of `iter_merge`: of each run of tied times, keep only
the last `(t, state)` (the one carrying all simultaneous updates). -/
def dedupLast : List (T × List V) → List (T × List V)
  | [] => []
  | [x] => [x]
  | x :: y :: rest =>
    if x.1 ≠ y.1 then x :: dedupLast (y :: rest) else dedupLast (y :: rest)

/-- `TimeSeries.iter_merge`: nothing for an empty list, otherwise the
deduplicated `_iter_merge` stream. -/
def TimeSeries.iter_merge (tss : List (TimeSeries T V)) : List (T × List V) :=
  match tss with
  | [] => []
  | _ :: _ => dedupLast (iterMergeRaw tss)

/-- The dedup fold of the benchmark's `heapq_iter_merge`: hold the previous
time and the running state, yield the state accumulated for a time just
before moving past it, and flush at the end. -/
def heapqDedup (previous_t : T) (state : List V) :
    List (T × ℕ × V) → List (T × List V)
  | [] => [(previous_t, state)]
  | (t, i, v) :: rest =>
    if t ≠ previous_t then
      (previous_t, state) :: heapqDedup t (state.set i v) rest
    else
      heapqDedup t (state.set i v) rest

/-- The benchmark's `heapq_iter_merge`: consume the transition stream of the
heapq merge (the same priority order as `_iter_merge`'s queue), folding it
into deduplicated `(t, state)` pairs. -/
def heapq_iter_merge (tss : List (TimeSeries T V)) : List (T × List V) :=
  match tss with
  | [] => []
  | _ :: _ =>
    match transitionsLoop (initialQueue tss) with
    | [] => []
    | (t, i, v) :: rest =>
      heapqDedup t ((tss.map (fun ts => ts.default)).set i v) rest

/-- The state loop is the scan of the transition loop over the same queue. -/
theorem mergeLoop_eq_scan (state : List V) (queue : List (MergeEntry T V)) :
    mergeLoop state queue = scanStates state (transitionsLoop queue) := by
  induction state, queue using mergeLoop.induct with
  | case1 st => rw [mergeLoop, transitionsLoop]; rfl
  | case2 st t index value iterator rest_q ih =>
    rw [mergeLoop, transitionsLoop, scanStates]
    rw [ih]

/-- The heapq dedup fold agrees with `dedupLast` over the scanned states. -/
theorem heapqDedup_eq_dedupLast (L : List (T × ℕ × V)) :
    ∀ (prev : T) (st : List V),
    heapqDedup prev st L = dedupLast ((prev, st) :: scanStates st L) := by
  induction L with
  | nil =>
    intro prev st
    rfl
  | cons x rest ih =>
    intro prev st
    obtain ⟨t, i, v⟩ := x
    rw [scanStates, heapqDedup, dedupLast]
    by_cases h : t ≠ prev
    · rw [if_pos h, if_pos (by simpa using Ne.symm h), ih]
    · rw [if_neg h, if_neg (by simpa using fun hc => h (Ne.symm hc)), ih]

/-- C9: the library's `iter_merge` and the benchmark's `heapq_iter_merge`
produce identical `(t, state)` sequences on every input: both pop entries
in `(time, index)` priority order and both keep, for each distinct time,
only the state carrying all of that time's updates. -/
theorem claim_iter_merge_strategies_equal (tss : List (TimeSeries T V)) :
    TimeSeries.iter_merge tss = heapq_iter_merge tss := by
  match tss with
  | [] => rfl
  | S :: rest =>
    have h1 : TimeSeries.iter_merge (S :: rest) =
        dedupLast (iterMergeRaw (S :: rest)) := rfl
    cases hL : transitionsLoop (initialQueue (S :: rest)) with
    | nil =>
      have h2 : heapq_iter_merge (S :: rest) = [] := by
        simp only [heapq_iter_merge]
        rw [hL]
      rw [h1, h2, iterMergeRaw, mergeLoop_eq_scan, hL]
      rfl
    | cons x restL =>
      obtain ⟨t, i, v⟩ := x
      have h2 : heapq_iter_merge (S :: rest) =
          heapqDedup t (((S :: rest).map (fun ts => ts.default)).set i v)
            restL := by
        simp only [heapq_iter_merge]
        rw [hL]
      rw [h1, h2, iterMergeRaw, mergeLoop_eq_scan, hL, scanStates,
        heapqDedup_eq_dedupLast]

end Merge

section MergeSpec

open List

/-- Strict order on transition triples: by time, then by series index. -/
def tripLt (a b : T × ℕ × V) : Prop :=
  a.1 < b.1 ∨ (a.1 = b.1 ∧ a.2.1 < b.2.1)

theorem tripLt_trans {a b c : T × ℕ × V} (h1 : tripLt a b) (h2 : tripLt b c) :
    tripLt a c := by
  rcases h1 with h1 | ⟨h1, h1'⟩ <;> rcases h2 with h2 | ⟨h2, h2'⟩
  · exact Or.inl (lt_trans h1 h2)
  · exact Or.inl (h2 ▸ h1)
  · exact Or.inl (h1 ▸ h2)
  · exact Or.inr ⟨h1.trans h2, lt_trans h1' h2'⟩

theorem tripLt_asymm {a b : T × ℕ × V} (h1 : tripLt a b) (h2 : tripLt b a) :
    False := by
  rcases h1 with h1 | ⟨h1, h1'⟩
  · rcases h2 with h2 | ⟨h2, h2'⟩
    · exact lt_asymm h1 h2
    · rw [h2] at h1
      exact lt_irrefl _ h1
  · rcases h2 with h2 | ⟨h2, h2'⟩
    · rw [h1] at h2
      exact lt_irrefl _ h2
    · exact lt_asymm h1' h2'

theorem entLt_trans {a b c : MergeEntry T V} (h1 : entLt a b) (h2 : entLt b c) :
    entLt a c := by
  rcases h1 with h1 | ⟨h1, h1'⟩ <;> rcases h2 with h2 | ⟨h2, h2'⟩
  · exact Or.inl (lt_trans h1 h2)
  · exact Or.inl (h2 ▸ h1)
  · exact Or.inl (h1 ▸ h2)
  · exact Or.inr ⟨h1.trans h2, lt_trans h1' h2'⟩

/-- Comparison of entries with distinct indices is total. -/
theorem entLt_total {e f : MergeEntry T V} (hne : e.2.1 ≠ f.2.1)
    (h : ¬ entLt e f) : entLt f e := by
  rw [entLt, not_or, not_and_or] at h
  obtain ⟨h1, h2⟩ := h
  rcases lt_or_eq_of_le (not_lt.mp h1) with h3 | h3
  · exact Or.inl h3
  · rcases h2 with h2 | h2
    · exact absurd h3.symm h2
    · exact Or.inr ⟨h3, lt_of_le_of_ne (not_lt.mp h2) (Ne.symm hne)⟩

theorem mem_pqInsert {e x : MergeEntry T V} :
    ∀ {q : List (MergeEntry T V)}, x ∈ pqInsert e q ↔ x = e ∨ x ∈ q := by
  intro q
  induction q with
  | nil => simp [pqInsert]
  | cons f q ih =>
    by_cases h : e.1 < f.1 ∨ (e.1 = f.1 ∧ e.2.1 < f.2.1)
    · rw [pqInsert, if_pos h]
      simp [or_comm, or_assoc, or_left_comm]
    · rw [pqInsert, if_neg h]
      simp only [List.mem_cons, ih]
      tauto

theorem pqInsert_perm (e : MergeEntry T V) :
    ∀ q : List (MergeEntry T V), pqInsert e q ~ e :: q := by
  intro q
  induction q with
  | nil => rfl
  | cons f q ih =>
    by_cases h : e.1 < f.1 ∨ (e.1 = f.1 ∧ e.2.1 < f.2.1)
    · rw [pqInsert, if_pos h]
    · rw [pqInsert, if_neg h]
      exact (List.Perm.cons f ih).trans (List.Perm.swap e f q)

/-- Inserting an entry with a fresh index preserves the queue order. -/
theorem pqInsert_pairwise {e : MergeEntry T V} :
    ∀ {q : List (MergeEntry T V)}, q.Pairwise entLt →
    e.2.1 ∉ q.map (fun f => f.2.1) → (pqInsert e q).Pairwise entLt := by
  intro q
  induction q with
  | nil =>
    intro _ _
    simp [pqInsert]
  | cons f q ih =>
    intro hpw hidx
    have hef : e.2.1 ≠ f.2.1 := by
      intro hc
      exact hidx (by simp [hc])
    by_cases h : e.1 < f.1 ∨ (e.1 = f.1 ∧ e.2.1 < f.2.1)
    · rw [pqInsert, if_pos h]
      refine List.pairwise_cons.mpr ⟨?_, hpw⟩
      intro g hg
      rcases List.mem_cons.mp hg with hg | hg
      · rw [hg]; exact h
      · exact entLt_trans h ((List.pairwise_cons.mp hpw).1 g hg)
    · rw [pqInsert, if_neg h]
      refine List.pairwise_cons.mpr ⟨?_, ?_⟩
      · intro g hg
        rcases mem_pqInsert.mp hg with hg | hg
        · rw [hg]
          exact entLt_total hef h
        · exact (List.pairwise_cons.mp hpw).1 g hg
      · exact ih (List.pairwise_cons.mp hpw).2
          (fun hc => hidx (List.mem_cons_of_mem _ hc))

/-- The stream of an entry: its current measurement followed by its
iterator, as stored points. -/
def entryStream (e : MergeEntry T V) : List (T × V) :=
  (e.1, e.2.2.1) :: e.2.2.2

/-- All transitions an entry will ever produce, tagged with its index. -/
def entryTriples (e : MergeEntry T V) : List (T × ℕ × V) :=
  (entryStream e).map (fun p => (p.1, e.2.1, p.2))

/-- All transitions the queue will ever produce. -/
def queueTriples : List (MergeEntry T V) → List (T × ℕ × V)
  | [] => []
  | e :: q => entryTriples e ++ queueTriples q

theorem mem_queueTriples {x : T × ℕ × V} :
    ∀ {q : List (MergeEntry T V)}, x ∈ queueTriples q →
    ∃ f ∈ q, x ∈ entryTriples f := by
  intro q
  induction q with
  | nil => intro h; cases h
  | cons f q ih =>
    intro h
    rcases List.mem_append.mp h with h | h
    · exact ⟨f, List.mem_cons_self _ _, h⟩
    · obtain ⟨g, hg, hx⟩ := ih h
      exact ⟨g, List.mem_cons_of_mem _ hg, hx⟩

theorem queueTriples_pqInsert (e : MergeEntry T V) :
    ∀ q : List (MergeEntry T V),
    queueTriples (pqInsert e q) ~ entryTriples e ++ queueTriples q := by
  intro q
  induction q with
  | nil => rfl
  | cons f q ih =>
    by_cases h : e.1 < f.1 ∨ (e.1 = f.1 ∧ e.2.1 < f.2.1)
    · rw [pqInsert, if_pos h]
      rfl
    · rw [pqInsert, if_neg h]
      calc queueTriples (f :: pqInsert e q)
          = entryTriples f ++ queueTriples (pqInsert e q) := rfl
        _ ~ entryTriples f ++ (entryTriples e ++ queueTriples q) :=
            List.Perm.append_left _ ih
        _ = (entryTriples f ++ entryTriples e) ++ queueTriples q := by
            rw [List.append_assoc]
        _ ~ (entryTriples e ++ entryTriples f) ++ queueTriples q :=
            List.Perm.append_right _ List.perm_append_comm
        _ = entryTriples e ++ queueTriples (f :: q) := by
            rw [List.append_assoc]
            rfl

/-- The head transition of a sorted-stream entry strictly precedes every
other transition of the same entry. -/
theorem headTrip_lt_own {e : MergeEntry T V}
    (hst : SortedPoints (entryStream e)) :
    ∀ x ∈ (e.2.2.2).map (fun p => (p.1, e.2.1, p.2)),
      tripLt (e.1, e.2.1, e.2.2.1) x := by
  intro x hx
  obtain ⟨p, hp, hpx⟩ := List.mem_map.mp hx
  have : e.1 < p.1 := (List.pairwise_cons.mp hst).1 p hp
  rw [← hpx]
  exact Or.inl this

/-- The head transition of an entry strictly precedes every transition of a
queue entry that compares greater. -/
theorem headTrip_lt_entry {e f : MergeEntry T V} (hef : entLt e f)
    (hst : SortedPoints (entryStream f)) :
    ∀ x ∈ entryTriples f, tripLt (e.1, e.2.1, e.2.2.1) x := by
  intro x hx
  obtain ⟨p, hp, hpx⟩ := List.mem_map.mp hx
  rcases List.mem_cons.mp hp with hp1 | hp1
  · rw [← hpx, hp1]
    exact hef
  · have hfp : f.1 < p.1 := (List.pairwise_cons.mp hst).1 p hp1
    rw [← hpx]
    rcases hef with h | ⟨h, _⟩
    · exact Or.inl (lt_trans h hfp)
    · exact Or.inl (h ▸ hfp)

/-- On a well-formed queue the transition loop emits exactly the queue's
triples, in strictly increasing `(time, index)` order. -/
theorem transitionsLoop_spec :
    ∀ q : List (MergeEntry T V), q.Pairwise entLt →
    (∀ e ∈ q, SortedPoints (entryStream e)) →
    (q.map (fun f => f.2.1)).Nodup →
    transitionsLoop q ~ queueTriples q ∧
    List.Pairwise tripLt (transitionsLoop q) := by
  intro q
  induction q using transitionsLoop.induct with
  | case1 =>
    intro _ _ _
    constructor
    · rw [transitionsLoop]
      rfl
    · rw [transitionsLoop]
      exact List.Pairwise.nil
  | case2 t index value iterator rest_q ih =>
    intro hpw hst hnd
    have hpw' : rest_q.Pairwise entLt := (List.pairwise_cons.mp hpw).2
    have hhead : ∀ f ∈ rest_q, entLt (t, index, value, iterator) f :=
      (List.pairwise_cons.mp hpw).1
    have hstE : SortedPoints (entryStream (t, index, value, iterator)) :=
      hst _ (List.mem_cons_self _ _)
    have hst' : ∀ e ∈ rest_q, SortedPoints (entryStream e) :=
      fun e he => hst e (List.mem_cons_of_mem _ he)
    have hidx_not : index ∉ rest_q.map (fun f => f.2.1) := by
      have := List.nodup_cons.mp hnd
      exact this.1
    have hnd' : (rest_q.map (fun f => f.2.1)).Nodup :=
      (List.nodup_cons.mp hnd).2
    have hpushPw : (pushNext index iterator rest_q).Pairwise entLt := by
      match iterator with
      | [] => exact hpw'
      | (t2, v2) :: it2 => exact pqInsert_pairwise hpw' hidx_not
    have hpushSt : ∀ e ∈ pushNext index iterator rest_q,
        SortedPoints (entryStream e) := by
      match iterator with
      | [] => exact hst'
      | (t2, v2) :: it2 =>
        intro e he
        rcases mem_pqInsert.mp he with he | he
        · rw [he]
          exact (List.pairwise_cons.mp hstE).2
        · exact hst' e he
    have hpushNd : ((pushNext index iterator rest_q).map
        (fun f => f.2.1)).Nodup := by
      match iterator with
      | [] => exact hnd'
      | (t2, v2) :: it2 =>
        have hperm : (pqInsert (t2, index, v2, it2) rest_q).map
            (fun f => f.2.1) ~ index :: rest_q.map (fun f => f.2.1) :=
          (pqInsert_perm _ rest_q).map _
        exact hperm.nodup_iff.mpr (List.nodup_cons.mpr ⟨hidx_not, hnd'⟩)
    obtain ⟨ihP, ihS⟩ := ih hpushPw hpushSt hpushNd
    have hpushTrip : queueTriples (pushNext index iterator rest_q) ~
        (iterator.map (fun p => (p.1, index, p.2))) ++ queueTriples rest_q := by
      match iterator with
      | [] => rfl
      | (t2, v2) :: it2 => exact queueTriples_pqInsert _ rest_q
    constructor
    · rw [transitionsLoop]
      calc (t, index, value) :: transitionsLoop (pushNext index iterator rest_q)
          ~ (t, index, value) :: ((iterator.map (fun p => (p.1, index, p.2))) ++
              queueTriples rest_q) := List.Perm.cons _ (ihP.trans hpushTrip)
        _ = queueTriples ((t, index, value, iterator) :: rest_q) := rfl
    · rw [transitionsLoop]
      refine List.pairwise_cons.mpr ⟨?_, ihS⟩
      intro x hx
      have hx2 : x ∈ (iterator.map (fun p => (p.1, index, p.2))) ++
          queueTriples rest_q := (ihP.trans hpushTrip).mem_iff.mp hx
      rcases List.mem_append.mp hx2 with hx3 | hx3
      · exact headTrip_lt_own hstE x hx3
      · obtain ⟨f, hf, hxf⟩ := mem_queueTriples hx3
        exact headTrip_lt_entry (hhead f hf) (hst' f hf) x hxf

/-- Two lists that are permutations of each other and both strictly sorted
by an asymmetric relation are equal. -/
theorem perm_eq_of_pairwise {α : Type} {r : α → α → Prop}
    (hr : ∀ a b, r a b → r b a → False) :
    ∀ {l1 l2 : List α}, l1 ~ l2 → l1.Pairwise r → l2.Pairwise r →
    l1 = l2 := by
  intro l1
  induction l1 with
  | nil =>
    intro l2 hp _ _
    exact (hp.symm.eq_nil).symm
  | cons a t1 ih =>
    intro l2 hp h1 h2
    cases l2 with
    | nil => exact absurd hp.symm (by simp)
    | cons b t2 =>
      by_cases hab : a = b
      · subst hab
        rw [ih (hp.cons_inv) (List.pairwise_cons.mp h1).2
          (List.pairwise_cons.mp h2).2]
      · have ha2 : a ∈ b :: t2 := hp.mem_iff.mp (List.mem_cons_self _ _)
        have hat2 : a ∈ t2 := by
          rcases List.mem_cons.mp ha2 with h | h
          · exact absurd h hab
          · exact h
        have hb1 : b ∈ a :: t1 := hp.symm.mem_iff.mp (List.mem_cons_self _ _)
        have hbt1 : b ∈ t1 := by
          rcases List.mem_cons.mp hb1 with h | h
          · exact absurd h.symm hab
          · exact h
        exact absurd ((List.pairwise_cons.mp h2).1 a hat2)
          (fun hba => hr a b ((List.pairwise_cons.mp h1).1 b hbt1) hba)

/-- All measurement triples of a list of series, tagged with indices
starting at `n` (the flat view of what `enumerate` feeds the queue). -/
def allTriplesFrom (n : ℕ) : List (TimeSeries T V) → List (T × ℕ × V)
  | [] => []
  | S :: rest => S.points.map (fun p => (p.1, n, p.2)) ++
      allTriplesFrom (n + 1) rest

theorem allTriplesFrom_ge :
    ∀ (L : List (TimeSeries T V)) (n : ℕ) (x : T × ℕ × V),
    x ∈ allTriplesFrom n L → n ≤ x.2.1 := by
  intro L
  induction L with
  | nil => intro n x hx; cases hx
  | cons S rest ih =>
    intro n x hx
    rcases List.mem_append.mp hx with hx | hx
    · obtain ⟨p, _, hpx⟩ := List.mem_map.mp hx
      rw [← hpx]
    · exact le_of_lt (lt_of_lt_of_le (Nat.lt_succ_self n) (ih (n + 1) x hx))

theorem allTriplesFrom_filter :
    ∀ (L : List (TimeSeries T V)) (n : ℕ) (i : Fin L.length),
    (allTriplesFrom n L).filter (fun x => x.2.1 == n + i.1) =
      (L.get i).points.map (fun p => (p.1, n + i.1, p.2)) := by
  intro L
  induction L with
  | nil => intro n i; exact absurd i.2 (by simp)
  | cons S rest ih =>
    intro n i
    rcases i with ⟨j, hj⟩
    rw [allTriplesFrom, List.filter_append]
    cases j with
    | zero =>
      have h1 : (S.points.map (fun p => (p.1, n, p.2))).filter
          (fun x => x.2.1 == n + 0) = S.points.map (fun p => (p.1, n, p.2)) := by
        rw [List.filter_eq_self]
        intro x hx
        obtain ⟨p, _, hpx⟩ := List.mem_map.mp hx
        rw [← hpx]
        simp
      have h2 : (allTriplesFrom (n + 1) rest).filter
          (fun x => x.2.1 == n + 0) = [] := by
        rw [List.filter_eq_nil_iff]
        intro x hx
        have := allTriplesFrom_ge rest (n + 1) x hx
        simp only [beq_iff_eq]
        omega
      rw [h1, h2, List.append_nil]
      rfl
    | succ j2 =>
      have h1 : (S.points.map (fun p => (p.1, n, p.2))).filter
          (fun x => x.2.1 == n + (j2 + 1)) = [] := by
        rw [List.filter_eq_nil_iff]
        intro x hx
        obtain ⟨p, _, hpx⟩ := List.mem_map.mp hx
        rw [← hpx]
        simp only [beq_iff_eq]
        omega
      have h2 : n + (j2 + 1) = (n + 1) + j2 := by omega
      rw [h1, List.nil_append, h2,
        ih (n + 1) ⟨j2, by simpa using Nat.lt_of_succ_lt_succ hj⟩]
      rfl

theorem allTriplesFrom_times :
    ∀ (L : List (TimeSeries T V)) (n : ℕ) (t : T),
    (∃ x ∈ allTriplesFrom n L, x.1 = t) ↔
      ∃ S ∈ L, ∃ p ∈ S.points, p.1 = t := by
  intro L
  induction L with
  | nil => intro n t; simp [allTriplesFrom]
  | cons S rest ih =>
    intro n t
    constructor
    · rintro ⟨x, hx, hxt⟩
      rcases List.mem_append.mp hx with hx | hx
      · obtain ⟨p, hp, hpx⟩ := List.mem_map.mp hx
        refine ⟨S, List.mem_cons_self _ _, p, hp, ?_⟩
        rw [← hxt, ← hpx]
      · obtain ⟨S2, hS2, p, hp, hpt⟩ := (ih (n + 1) t).mp ⟨x, hx, hxt⟩
        exact ⟨S2, List.mem_cons_of_mem _ hS2, p, hp, hpt⟩
    · rintro ⟨S2, hS2, p, hp, hpt⟩
      rcases List.mem_cons.mp hS2 with h | h
      · subst h
        exact ⟨(p.1, n, p.2), List.mem_append_left _
          (List.mem_map.mpr ⟨p, hp, rfl⟩), hpt⟩
      · obtain ⟨x, hx, hxt⟩ := (ih (n + 1) t).mpr ⟨S2, h, p, hp, hpt⟩
        exact ⟨x, List.mem_append_right _ hx, hxt⟩

/-- Folding `queueStep` over an enumerated series list preserves the queue
invariants and collects exactly the series' measurement triples. -/
theorem buildQueue_spec :
    ∀ (L : List (TimeSeries T V)) (n : ℕ) (q0 : List (MergeEntry T V)),
    (∀ S ∈ L, SortedPoints S.points) →
    q0.Pairwise entLt →
    (∀ e ∈ q0, SortedPoints (entryStream e)) →
    ((q0.map (fun f => f.2.1))).Nodup →
    (∀ e ∈ q0, e.2.1 < n) →
    ((List.enumFrom n L).foldl queueStep q0).Pairwise entLt ∧
    (∀ e ∈ (List.enumFrom n L).foldl queueStep q0,
      SortedPoints (entryStream e)) ∧
    (((List.enumFrom n L).foldl queueStep q0).map (fun f => f.2.1)).Nodup ∧
    queueTriples ((List.enumFrom n L).foldl queueStep q0) ~
      queueTriples q0 ++ allTriplesFrom n L := by
  intro L
  induction L with
  | nil =>
    intro n q0 _ hpw hst hnd _
    refine ⟨hpw, hst, hnd, ?_⟩
    simp [allTriplesFrom]
  | cons S rest ih =>
    intro n q0 hsl hpw hst hnd hbound
    rw [List.enumFrom_cons, List.foldl_cons]
    have hSsorted : SortedPoints S.points := hsl S (List.mem_cons_self _ _)
    have hsl' : ∀ S2 ∈ rest, SortedPoints S2.points :=
      fun S2 h => hsl S2 (List.mem_cons_of_mem _ h)
    cases hpts : S.points with
    | nil =>
      have hstep : queueStep q0 (n, S) = q0 := by
        simp [queueStep, hpts]
      rw [hstep]
      obtain ⟨c1, c2, c3, c4⟩ := ih (n + 1) q0 hsl' hpw hst hnd
        (fun e he => lt_trans (hbound e he) (Nat.lt_succ_self n))
      refine ⟨c1, c2, c3, ?_⟩
      rw [allTriplesFrom, hpts]
      simpa using c4
    | cons p restp =>
      obtain ⟨t, v⟩ := p
      have hstep : queueStep q0 (n, S) = pqInsert (t, n, v, restp) q0 := by
        simp [queueStep, hpts]
      rw [hstep]
      have hfresh : n ∉ q0.map (fun f => f.2.1) := by
        intro hc
        obtain ⟨e, he, hee⟩ := List.mem_map.mp hc
        exact absurd (hbound e he) (by rw [hee]; exact lt_irrefl n)
      have hq1pw : (pqInsert (t, n, v, restp) q0).Pairwise entLt :=
        pqInsert_pairwise hpw hfresh
      have hq1st : ∀ e ∈ pqInsert (t, n, v, restp) q0,
          SortedPoints (entryStream e) := by
        intro e he
        rcases mem_pqInsert.mp he with he | he
        · rw [he]
          show SortedPoints ((t, v) :: restp)
          rw [← hpts]
          exact hSsorted
        · exact hst e he
      have hq1nd : ((pqInsert (t, n, v, restp) q0).map
          (fun f => f.2.1)).Nodup := by
        have hperm : (pqInsert (t, n, v, restp) q0).map (fun f => f.2.1) ~
            n :: q0.map (fun f => f.2.1) := (pqInsert_perm _ q0).map _
        exact hperm.nodup_iff.mpr (List.nodup_cons.mpr ⟨hfresh, hnd⟩)
      have hq1bound : ∀ e ∈ pqInsert (t, n, v, restp) q0,
          e.2.1 < n + 1 := by
        intro e he
        rcases mem_pqInsert.mp he with he | he
        · rw [he]
          exact Nat.lt_succ_self n
        · exact lt_trans (hbound e he) (Nat.lt_succ_self n)
      obtain ⟨c1, c2, c3, c4⟩ := ih (n + 1) (pqInsert (t, n, v, restp) q0)
        hsl' hq1pw hq1st hq1nd hq1bound
      refine ⟨c1, c2, c3, ?_⟩
      have hET : entryTriples (t, n, v, restp) =
          S.points.map (fun p => (p.1, n, p.2)) := by
        rw [hpts]
        rfl
      calc queueTriples ((List.enumFrom (n + 1) rest).foldl queueStep
            (pqInsert (t, n, v, restp) q0))
          ~ queueTriples (pqInsert (t, n, v, restp) q0) ++
              allTriplesFrom (n + 1) rest := c4
        _ ~ (entryTriples (t, n, v, restp) ++ queueTriples q0) ++
              allTriplesFrom (n + 1) rest :=
            List.Perm.append_right _ (queueTriples_pqInsert _ q0)
        _ ~ (queueTriples q0 ++ entryTriples (t, n, v, restp)) ++
              allTriplesFrom (n + 1) rest :=
            List.Perm.append_right _ List.perm_append_comm
        _ = queueTriples q0 ++ (entryTriples (t, n, v, restp) ++
              allTriplesFrom (n + 1) rest) := by rw [List.append_assoc]
        _ = queueTriples q0 ++ allTriplesFrom n (S :: rest) := by
            rw [allTriplesFrom, hET]

/-- The initial queue of `_iter_merge` is well formed and owns exactly the
measurement triples of all input series. -/
theorem initialQueue_spec (tss : List (TimeSeries T V))
    (hs : ∀ S ∈ tss, SortedPoints S.points) :
    (initialQueue tss).Pairwise entLt ∧
    (∀ e ∈ initialQueue tss, SortedPoints (entryStream e)) ∧
    ((initialQueue tss).map (fun f => f.2.1)).Nodup ∧
    queueTriples (initialQueue tss) ~ allTriplesFrom 0 tss := by
  obtain ⟨c1, c2, c3, c4⟩ := buildQueue_spec tss 0 [] hs (by simp)
    (by intro e he; cases he) (by simp) (by intro e he; cases he)
  exact ⟨c1, c2, c3, by simpa using c4⟩

theorem scanStates_map_fst :
    ∀ (L : List (T × ℕ × V)) (st : List V),
    (scanStates st L).map Prod.fst = L.map (fun x => x.1) := by
  intro L
  induction L with
  | nil => intro st; rfl
  | cons x L2 ih =>
    intro st
    obtain ⟨t, i, v⟩ := x
    rw [scanStates, List.map_cons, List.map_cons, ih]

theorem dedupLast_times_subset :
    ∀ (xs : List (T × List V)) (t : T),
    t ∈ (dedupLast xs).map Prod.fst → t ∈ xs.map Prod.fst := by
  intro xs
  induction xs using dedupLast.induct with
  | case1 => intro t ht; cases ht
  | case2 x => intro t ht; exact ht
  | case3 x y rest hne ih =>
    intro t ht
    rw [dedupLast, if_pos hne] at ht
    rcases List.mem_cons.mp ht with h | h
    · rw [h]; exact List.mem_cons_self _ _
    · exact List.mem_cons_of_mem _ (ih t h)
  | case4 x y rest hne ih =>
    intro t ht
    rw [dedupLast, if_neg hne] at ht
    exact List.mem_cons_of_mem _ (ih t ht)

theorem dedupLast_times_mem :
    ∀ (xs : List (T × List V)) (t : T),
    t ∈ xs.map Prod.fst → t ∈ (dedupLast xs).map Prod.fst := by
  intro xs
  induction xs using dedupLast.induct with
  | case1 => intro t ht; cases ht
  | case2 x => intro t ht; exact ht
  | case3 x y rest hne ih =>
    intro t ht
    rw [dedupLast, if_pos hne]
    rcases List.mem_cons.mp ht with h | h
    · rw [h]; exact List.mem_cons_self _ _
    · exact List.mem_cons_of_mem _ (ih t h)
  | case4 x y rest hne ih =>
    intro t ht
    rw [dedupLast, if_neg hne]
    have hxy : x.1 = y.1 := not_not.mp hne
    rcases List.mem_cons.mp ht with h | h
    · exact ih t (by rw [h, hxy]; exact List.mem_cons_self _ _)
    · exact ih t h

theorem dedupLast_times_pairwise :
    ∀ xs : List (T × List V),
    (xs.map Prod.fst).Pairwise (· ≤ ·) →
    ((dedupLast xs).map Prod.fst).Pairwise (· < ·) := by
  intro xs
  induction xs using dedupLast.induct with
  | case1 => intro _; exact List.Pairwise.nil
  | case2 x => intro _; rw [dedupLast]; simp
  | case3 x y rest hne ih =>
    intro hpw
    rw [dedupLast, if_pos hne, List.map_cons]
    have hxy : x.1 ≤ y.1 :=
      (List.pairwise_cons.mp hpw).1 y.1 (by simp)
    have hxylt : x.1 < y.1 := lt_of_le_of_ne hxy hne
    refine List.pairwise_cons.mpr ⟨?_, ih (List.pairwise_cons.mp hpw).2⟩
    intro s hsm
    have hs2 : s ∈ (y :: rest).map Prod.fst := dedupLast_times_subset _ s hsm
    rcases List.mem_cons.mp hs2 with h | h
    · rw [h]; exact hxylt
    · have : y.1 ≤ s :=
        (List.pairwise_cons.mp (List.pairwise_cons.mp hpw).2).1 s h
      exact lt_of_lt_of_le hxylt this
  | case4 x y rest hne ih =>
    intro hpw
    rw [dedupLast, if_neg hne]
    exact ih (List.pairwise_cons.mp hpw).2

/-- The invariant of the merge scan: if each series decomposes into an
already-consumed prefix and the pending transitions of `L`, the state holds
the last consumed value of each series, and all consumed keys precede all
pending times, then every deduplicated emission `(t, state)` has
`state[i] = S_i.get(t, "previous")` for every series. -/
theorem scan_dedup_spec (tss : List (TimeSeries T V))
    (hs : ∀ S ∈ tss, SortedPoints S.points) :
    ∀ (L : List (T × ℕ × V)) (st : List V) (consF : ℕ → List (T × V)),
    List.Pairwise tripLt L →
    (∀ i : Fin tss.length, (tss.get i).points =
      consF i.1 ++ (L.filter (fun x => x.2.1 == i.1)).map
        (fun x => (x.1, x.2.2))) →
    st.length = tss.length →
    (∀ i : Fin tss.length, st[i.1]? =
      some ((((consF i.1).getLast?).map Prod.snd).getD (tss.get i).default)) →
    (∀ j : ℕ, ∀ p ∈ consF j, ∀ x ∈ L, p.1 ≤ x.1) →
    ∀ te ∈ dedupLast (scanStates st L),
      te.2.length = tss.length ∧
      ∀ i : Fin tss.length, te.2[i.1]? = some ((tss.get i).get te.1) := by
  intro L
  induction L with
  | nil =>
    intro st consF _ _ _ _ _ te hte
    rw [scanStates, dedupLast] at hte
    cases hte
  | cons x L2 ih =>
    intro st consF hpwL hdec hlen hstv hbound
    obtain ⟨t0, i0, v0⟩ := x
    have hL2pw : List.Pairwise tripLt L2 := (List.pairwise_cons.mp hpwL).2
    have hheadlt : ∀ x ∈ L2, tripLt (t0, i0, v0) x :=
      (List.pairwise_cons.mp hpwL).1
    have hemit : (∀ y ∈ L2, t0 < y.1) →
        (st.set i0 v0).length = tss.length ∧
        ∀ i : Fin tss.length,
          (st.set i0 v0)[i.1]? = some ((tss.get i).get t0) := by
      intro hgap
      refine ⟨by rw [List.length_set, hlen], ?_⟩
      intro i
      have hSsorted : SortedPoints (tss.get i).points :=
        hs _ (List.get_mem tss i.1 i.2)
      by_cases hii : i.1 = i0
      · have hfilter : (((t0, i0, v0) :: L2).filter
            (fun x => x.2.1 == i.1)).map (fun x => (x.1, x.2.2)) =
            (t0, v0) :: (L2.filter (fun x => x.2.1 == i.1)).map
              (fun x => (x.1, x.2.2)) := by
          rw [List.filter_cons_of_pos (by simp [hii])]
          rfl
        have hPts : (tss.get i).points = consF i.1 ++ (t0, v0) ::
            (L2.filter (fun x => x.2.1 == i.1)).map (fun x => (x.1, x.2.2)) := by
          rw [hdec i, hfilter]
        have hget : (tss.get i).get t0 = v0 := by
          refine get_previous_eq_max (S := tss.get i) hSsorted
            (p := (t0, v0)) ?_ (le_refl t0) ?_
          · rw [hPts]
            exact List.mem_append_right _ (List.mem_cons_self _ _)
          · intro y hy hyq
            rw [hPts] at hSsorted
            rcases List.mem_append.mp (hPts ▸ hy) with hy1 | hy1
            · exact le_of_lt ((List.pairwise_append.mp hSsorted).2.2 y hy1
                (t0, v0) (List.mem_cons_self _ _))
            · rcases List.mem_cons.mp hy1 with hy2 | hy2
              · rw [hy2]
              · obtain ⟨z, hz, hzy⟩ := List.mem_map.mp hy2
                have hzL2 : (z.1, z.2.2) = y := hzy
                have : t0 < z.1 := hgap z (List.mem_of_mem_filter hz)
                rw [← hzy] at hyq
                exact absurd hyq (not_le.mpr this)
        rw [hget, ← hii, List.getElem?_set_self (by rw [hlen]; exact i.2)]
      · have hfilter : ((t0, i0, v0) :: L2).filter (fun x => x.2.1 == i.1) =
            L2.filter (fun x => x.2.1 == i.1) := by
          rw [List.filter_cons_of_neg (by simp only [beq_iff_eq]; exact fun h => hii h.symm)]
        have hPts : (tss.get i).points = consF i.1 ++
            (L2.filter (fun x => x.2.1 == i.1)).map (fun x => (x.1, x.2.2)) := by
          rw [hdec i, hfilter]
        have hpending : ∀ y ∈ (L2.filter (fun x => x.2.1 == i.1)).map
            (fun x => (x.1, x.2.2)), t0 < y.1 := by
          intro y hy
          obtain ⟨z, hz, hzy⟩ := List.mem_map.mp hy
          rw [← hzy]
          exact hgap z (List.mem_of_mem_filter hz)
        have hconsle : ∀ p ∈ consF i.1, p.1 ≤ t0 :=
          fun p hp => hbound i.1 p hp (t0, i0, v0) (List.mem_cons_self _ _)
        have hset : (st.set i0 v0)[i.1]? = st[i.1]? :=
          List.getElem?_set_ne (fun h => hii h.symm)
        rw [hset, hstv i]
        cases hc : (consF i.1).getLast? with
        | none =>
          have hnil : consF i.1 = [] := List.getLast?_eq_none_iff.mp hc
          have hget : (tss.get i).get t0 = (tss.get i).default := by
            refine get_previous_eq_default (S := tss.get i) hSsorted ?_
            intro p hp
            rw [hPts, hnil, List.nil_append] at hp
            exact not_le.mpr (hpending p hp)
          rw [hget]
          rfl
        | some pl =>
          have hplmem : pl ∈ consF i.1 := List.mem_of_getLast?_eq_some hc
          have hconsSorted : SortedPoints (consF i.1) := by
            have := hPts ▸ hSsorted
            exact (List.pairwise_append.mp this).1
          have hget : (tss.get i).get t0 = pl.2 := by
            refine get_previous_eq_max (S := tss.get i) hSsorted
              (p := pl) ?_ (hconsle pl hplmem) ?_
            · rw [hPts]
              exact List.mem_append_left _ hplmem
            · intro y hy hyq
              rcases List.mem_append.mp (hPts ▸ hy) with hy1 | hy1
              · exact max_of_getLast? hconsSorted hc y hy1
              · exact absurd hyq (not_le.mpr (hpending y hy1))
          rw [hget]
          rfl
    cases L2 with
    | nil =>
      intro te hte
      rw [scanStates, scanStates, dedupLast] at hte
      have hte2 : te = (t0, st.set i0 v0) := List.mem_singleton.mp hte
      rw [hte2]
      exact hemit (fun y hy => absurd hy (List.not_mem_nil y))
    | cons x1 L3 =>
      obtain ⟨t1, i1, v1⟩ := x1
      have hdec2 : ∀ i : Fin tss.length, (tss.get i).points =
          (if i.1 = i0 then consF i0 ++ [(t0, v0)] else consF i.1) ++
            (((t1, i1, v1) :: L3).filter (fun x => x.2.1 == i.1)).map
              (fun x => (x.1, x.2.2)) := by
        intro i
        by_cases hii : i.1 = i0
        · rw [if_pos hii, hdec i,
            List.filter_cons_of_pos (by simp [hii]), List.map_cons,
            List.append_assoc]
          rw [hii]
          rfl
        · rw [if_neg hii, hdec i,
            List.filter_cons_of_neg (by simp only [beq_iff_eq]; exact fun h => hii h.symm)]
      have hstv2 : ∀ i : Fin tss.length, (st.set i0 v0)[i.1]? =
          some (((((if i.1 = i0 then consF i0 ++ [(t0, v0)] else
            consF i.1)).getLast?).map Prod.snd).getD (tss.get i).default) := by
        intro i
        by_cases hii : i.1 = i0
        · rw [if_pos hii, ← hii,
            List.getElem?_set_self (by rw [hlen]; exact i.2),
            List.getLast?_concat]
          rfl
        · rw [if_neg hii, List.getElem?_set_ne (fun h => hii h.symm), hstv i]
      have hbound2 : ∀ j : ℕ, ∀ p ∈ (if j = i0 then consF i0 ++ [(t0, v0)]
          else consF j), ∀ x ∈ (t1, i1, v1) :: L3, p.1 ≤ x.1 := by
        intro j p hp x hx
        by_cases hjj : j = i0
        · rw [if_pos hjj] at hp
          rcases List.mem_append.mp hp with hp1 | hp1
          · exact hbound i0 p hp1 x (List.mem_cons_of_mem _ hx)
          · have hpt : p = (t0, v0) := List.mem_singleton.mp hp1
            rw [hpt]
            rcases hheadlt x hx with h | ⟨h, _⟩
            · exact le_of_lt h
            · exact le_of_eq h
        · rw [if_neg hjj] at hp
          exact hbound j p hp x (List.mem_cons_of_mem _ hx)
      have htail := ih (st.set i0 v0)
        (fun j => if j = i0 then consF i0 ++ [(t0, v0)] else consF j)
        hL2pw hdec2 (by rw [List.length_set, hlen]) hstv2 hbound2
      have hscan : scanStates st ((t0, i0, v0) :: (t1, i1, v1) :: L3) =
          (t0, st.set i0 v0) ::
            scanStates (st.set i0 v0) ((t1, i1, v1) :: L3) := by
        rw [scanStates]
      have hscan2 : scanStates (st.set i0 v0) ((t1, i1, v1) :: L3) =
          (t1, (st.set i0 v0).set i1 v1) ::
            scanStates ((st.set i0 v0).set i1 v1) L3 := by
        rw [scanStates]
      by_cases ht01 : t0 = t1
      · intro te hte
        rw [hscan, hscan2, dedupLast, if_neg (not_not_intro ht01),
          ← hscan2] at hte
        exact htail te hte
      · intro te hte
        rw [hscan, hscan2, dedupLast, if_pos ht01, ← hscan2] at hte
        rcases List.mem_cons.mp hte with hte1 | hte1
        · rw [hte1]
          refine hemit ?_
          intro y hy
          rcases List.mem_cons.mp hy with hy1 | hy1
          · rcases hheadlt y hy with h | ⟨h, _⟩
            · exact h
            · rw [hy1] at h
              exact absurd h ht01
          · have h1 : tripLt (t1, i1, v1) y :=
              (List.pairwise_cons.mp hL2pw).1 y hy1
            have h0 : t0 < t1 := by
              rcases hheadlt (t1, i1, v1) (List.mem_cons_self _ _) with h | ⟨h, _⟩
              · exact h
              · exact absurd h ht01
            rcases h1 with h | ⟨h, _⟩
            · exact lt_trans h0 h
            · exact h ▸ h0
        · exact htail te hte1

/-- C3: for a non-empty list of sorted series, `iter_merge` yields times in
strictly increasing order, exactly the distinct times that occur as keys in
any input, and each emitted state is a length-K vector whose `i`-th entry is
`S_i.get(t, "previous")` — so simultaneous updates at a tied time appear in
a single emission and defaults fill the positions with no key `≤ t`. -/
theorem claim_iter_merge_spec (tss : List (TimeSeries T V)) (hne : tss ≠ [])
    (hs : ∀ S ∈ tss, SortedPoints S.points) :
    ((TimeSeries.iter_merge tss).map Prod.fst).Pairwise (· < ·) ∧
    (∀ t : T, t ∈ (TimeSeries.iter_merge tss).map Prod.fst ↔
      ∃ S ∈ tss, ∃ p ∈ S.points, p.1 = t) ∧
    (∀ te ∈ TimeSeries.iter_merge tss,
      te.2.length = tss.length ∧
      ∀ i : Fin tss.length, te.2[i.1]? = some ((tss.get i).get te.1)) := by
  obtain ⟨hQpw, hQst, hQnd, hQperm⟩ := initialQueue_spec tss hs
  obtain ⟨hLperm, hLpw⟩ :=
    transitionsLoop_spec (initialQueue tss) hQpw hQst hQnd
  have hLall : transitionsLoop (initialQueue tss) ~ allTriplesFrom 0 tss :=
    hLperm.trans hQperm
  have hIM : TimeSeries.iter_merge tss =
      dedupLast (scanStates (tss.map (fun ts => ts.default))
        (transitionsLoop (initialQueue tss))) := by
    cases tss with
    | nil => exact absurd rfl hne
    | cons S rest =>
      show dedupLast (iterMergeRaw (S :: rest)) = _
      rw [iterMergeRaw, mergeLoop_eq_scan]
  refine ⟨?_, ?_, ?_⟩
  · rw [hIM]
    apply dedupLast_times_pairwise
    rw [scanStates_map_fst]
    refine List.Pairwise.map _ ?_ hLpw
    intro a b hab
    rcases hab with h | ⟨h, _⟩
    · exact le_of_lt h
    · exact le_of_eq h
  · intro t
    rw [hIM]
    constructor
    · intro ht
      have h1 := dedupLast_times_subset _ t ht
      rw [scanStates_map_fst] at h1
      obtain ⟨x, hx, hxt⟩ := List.mem_map.mp h1
      exact (allTriplesFrom_times tss 0 t).mp ⟨x, hLall.mem_iff.mp hx, hxt⟩
    · intro ht
      obtain ⟨x, hx, hxt⟩ := (allTriplesFrom_times tss 0 t).mpr ht
      apply dedupLast_times_mem
      rw [scanStates_map_fst]
      exact List.mem_map.mpr ⟨x, hLall.mem_iff.mpr hx, hxt⟩
  · rw [hIM]
    refine scan_dedup_spec tss hs (transitionsLoop (initialQueue tss))
      (tss.map (fun ts => ts.default)) (fun j => ([] : List (T × V)))
      hLpw ?_ ?_ ?_ ?_
    · intro i
      rw [List.nil_append]
      have hfperm : (transitionsLoop (initialQueue tss)).filter
          (fun x => x.2.1 == i.1) ~
          (allTriplesFrom 0 tss).filter (fun x => x.2.1 == i.1) :=
        hLall.filter _
      have hfilterA : (allTriplesFrom 0 tss).filter
          (fun x => x.2.1 == i.1) =
          (tss.get i).points.map (fun p => (p.1, i.1, p.2)) := by
        have h0 := allTriplesFrom_filter tss 0 i
        simpa using h0
      rw [hfilterA] at hfperm
      have hsortL : List.Pairwise tripLt
          ((transitionsLoop (initialQueue tss)).filter
            (fun x => x.2.1 == i.1)) :=
        List.Pairwise.filter _ hLpw
      have hsortR : List.Pairwise tripLt
          ((tss.get i).points.map (fun p => (p.1, i.1, p.2))) := by
        refine List.Pairwise.map _ ?_ (hs _ (List.get_mem tss i.1 i.2))
        intro a b hab
        exact Or.inl hab
      have hfEQ : (transitionsLoop (initialQueue tss)).filter
          (fun x => x.2.1 == i.1) =
          (tss.get i).points.map (fun p => (p.1, i.1, p.2)) :=
        perm_eq_of_pairwise (fun a b => tripLt_asymm) hfperm hsortL hsortR
      rw [hfEQ, List.map_map]
      have : ((fun x : T × ℕ × V => (x.1, x.2.2)) ∘
          (fun p : T × V => (p.1, i.1, p.2))) = fun p : T × V => p := by
        funext p
        rfl
      rw [this]
      simp
    · rw [List.length_map]
    · intro i
      rw [List.getElem?_map, List.getElem?_eq_getElem i.2]
      rfl
    · intro j p hp
      cases hp

/-- Two small concrete series for the C3 witness. -/
def exC3 : List (TimeSeries ℚ ℤ) :=
  [⟨[(0, 1), (2, 3)], 0⟩, ⟨[(1, 5), (2, 7)], 4⟩]

/-- Witness for C3 on two series sharing the key time `2`. -/
theorem claim_iter_merge_spec_witness :
    ((TimeSeries.iter_merge exC3).map Prod.fst).Pairwise (· < ·) ∧
    (∀ t : ℚ, t ∈ (TimeSeries.iter_merge exC3).map Prod.fst ↔
      ∃ S ∈ exC3, ∃ p ∈ S.points, p.1 = t) ∧
    (∀ te ∈ TimeSeries.iter_merge exC3,
      te.2.length = exC3.length ∧
      ∀ i : Fin exC3.length, te.2[i.1]? = some ((exC3.get i).get te.1)) :=
  claim_iter_merge_spec exC3 (by decide) (by decide)

end MergeSpec

end Traces
